import Mathlib

/-!
# Verification of the `sqldatabase` statement builder and transpiler

This file shallowly embeds the parts of the `sqldatabase` Python package
(condition/filter tree, record conversion pipeline, statement parameter
maps, table graph drop ordering, and the SQL transpiler's placeholder
rewriting) that the specification's claims are about, and proves or
refutes each claim against the embedding.

Python `dict` objects are modelled as insertion-ordered association
lists with the exact CPython semantics: assigning to an existing key
replaces the value in place (keeping the key's position), assigning a
fresh key appends, `d1 | d2` and `d1.update(d2)` fold the right operand's
entries into the left with that assignment, and `==` compares key/value
sets ignoring insertion order.
-/

/-- Python dict: insertion-ordered association list. Keys are unique by
construction because all writes go through `pySet`. -/
abbrev PyDict (α β : Type) := List (α × β)

/-- Python `d[k] = v`: replace in place if the key exists, append otherwise. -/
def pySet {α β : Type} [DecidableEq α] : PyDict α β → α → β → PyDict α β
  | [], k, v => [(k, v)]
  | (k', v') :: rest, k, v =>
      if k = k' then (k, v) :: rest else (k', v') :: pySet rest k v

/-- Python `d.get(k)` / `d[k]` lookup. -/
def pyGet? {α β : Type} [DecidableEq α] : PyDict α β → α → Option β
  | [], _ => none
  | (k', v') :: rest, k => if k = k' then some v' else pyGet? rest k

/-- Python `d.update(other)` (also the second operand's role in `d | other`):
fold every entry of `other` into `d` by dict assignment. -/
def pyUpdate {α β : Type} [DecidableEq α] (d other : PyDict α β) : PyDict α β :=
  other.foldl (fun acc kv => pySet acc kv.1 kv.2) d

/-- Python `d1 | d2` on dicts: copy of `d1` updated with `d2`; on a key
collision the value from `d2` silently wins. -/
def pyUnion {α β : Type} [DecidableEq α] (d1 d2 : PyDict α β) : PyDict α β :=
  pyUpdate d1 d2

/-- Python dict `==`: equal sizes and every entry of the left dict is
present with the same value in the right one. For dicts with unique keys
this is exactly CPython's order-insensitive dict equality. -/
def pyDictBeq {α β : Type} [DecidableEq α] [DecidableEq β]
    (d1 d2 : PyDict α β) : Bool :=
  d1.length = d2.length && d1.all fun kv => pyGet? d2 kv.1 = some kv.2

/-- Keys of a Python dict in insertion order (`d.keys()`). -/
def pyKeys {α β : Type} (d : PyDict α β) : List α := d.map Prod.fst

/-- Values of a Python dict in insertion order (`d.values()`). -/
def pyValues {α β : Type} (d : PyDict α β) : List β := d.map Prod.snd

theorem pyGet?_eq_none {α β : Type} [DecidableEq α] (d : PyDict α β) (k : α)
    (h : k ∉ pyKeys d) : pyGet? d k = none := by
  induction d with
  | nil => rfl
  | cons kv rest ih =>
      simp only [pyKeys, List.map_cons, List.mem_cons] at h
      push_neg at h
      simp only [pyGet?, if_neg h.1]
      exact ih h.2

theorem pySet_fresh {α β : Type} [DecidableEq α] (d : PyDict α β) (k : α) (v : β)
    (h : k ∉ pyKeys d) : pySet d k v = d ++ [(k, v)] := by
  induction d with
  | nil => rfl
  | cons kv rest ih =>
      simp only [pyKeys, List.map_cons, List.mem_cons] at h
      push_neg at h
      simp only [pySet, if_neg h.1, List.cons_append]
      rw [ih h.2]

/-- Updating with a dict whose keys are all fresh appends its entries:
the disjoint union is literally the concatenation of the two dicts. -/
theorem pyUpdate_disjoint {α β : Type} [DecidableEq α] (d other : PyDict α β)
    (hnodup : (pyKeys other).Nodup)
    (h : ∀ k ∈ pyKeys other, k ∉ pyKeys d) : pyUpdate d other = d ++ other := by
  induction other generalizing d with
  | nil => simp [pyUpdate]
  | cons kv rest ih =>
      simp only [pyKeys, List.map_cons, List.nodup_cons] at hnodup
      have hk : kv.1 ∉ pyKeys d := by
        refine h kv.1 ?_
        simp [pyKeys]
      have hrest : ∀ k ∈ pyKeys rest, k ∉ pyKeys (pySet d kv.1 kv.2) := by
        intro k hkmem
        have hknotd : k ∉ pyKeys d := by
          refine h k ?_
          simp only [pyKeys, List.map_cons, List.mem_cons]
          exact Or.inr hkmem
        rw [pySet_fresh d kv.1 kv.2 hk]
        simp only [pyKeys, List.map_append, List.mem_append, List.map_cons,
          List.map_nil, List.mem_singleton]
        rintro (hin | rfl)
        · exact hknotd hin
        · exact hnodup.1 hkmem
      have hstep : pyUpdate d (kv :: rest) = pyUpdate (pySet d kv.1 kv.2) rest := by
        simp [pyUpdate]
      rw [hstep, ih (pySet d kv.1 kv.2) hnodup.2 hrest,
        pySet_fresh d kv.1 kv.2 hk]
      simp

/-! ## Comparison operators (`sqloperator.py`)

`ESQLComparisonOperator` is a `str`-valued enum; `to_sql` (via
`SQLBaseEnum`) returns the member's value. The member values below are
copied from the source, including `GREATER_THAN_OR_EQUAL = "<="`. -/

inductive ESQLComparisonOperator where
  | BETWEEN
  | EQUAL
  | GREATER_THAN
  | GREATER_THAN_OR_EQUAL
  | IN
  | IS_NOT_NULL
  | IS_NULL
  | LESS_THAN
  | LESS_THAN_OR_EQUAL
  | LIKE
  | NOT_BETWEEN
  | NOT_EQUAL
  | NOT_IN
  | NOT_LIKE
  deriving DecidableEq, Repr

open ESQLComparisonOperator in
/-- The textual value of each `ESQLComparisonOperator` member, exactly as
written in `sqloperator.py` (`SQLBaseEnum.to_sql` returns `self.value`). -/
def ESQLComparisonOperator.to_sql : ESQLComparisonOperator → String
  | BETWEEN => "BETWEEN"
  | EQUAL => "="
  | GREATER_THAN => ">"
  | GREATER_THAN_OR_EQUAL => "<="
  | IN => "IN"
  | IS_NOT_NULL => "IS NOT NULL"
  | IS_NULL => "IS NULL"
  | LESS_THAN => "<"
  | LESS_THAN_OR_EQUAL => "<="
  | LIKE => "LIKE"
  | NOT_BETWEEN => "NOT BETWEEN"
  | NOT_EQUAL => "!="
  | NOT_IN => "NOT IN"
  | NOT_LIKE => "NOT LIKE"

/-! ## Leaf condition arity validation (`SQLCondition._validate_value_count`)

The source computes `required_value_count` (`None` meaning unchecked) and
then `assert`s `required_value_count is None or len(self.right) ==
required_value_count`; a mismatch raises a plain `AssertionError`. -/

open ESQLComparisonOperator in
/-- `required_value_count` as computed by `SQLCondition._validate_value_count`:
`none` models Python `None` (the `IN`/`NOT IN` branch, which skips the check). -/
def required_value_count : ESQLComparisonOperator → Option Nat
  | IS_NULL | IS_NOT_NULL => some 0
  | BETWEEN | NOT_BETWEEN => some 2
  | IN | NOT_IN => none
  | _ => some 1

/-- The `assert` condition of `SQLCondition._validate_value_count`: construction
of a leaf condition with `count` values succeeds iff this is `true`. -/
def validate_value_count (op : ESQLComparisonOperator) (count : Nat) : Bool :=
  required_value_count op = none || required_value_count op = some count

/-- The arity rule exactly as claim C4 states it: 0 values for the null
checks, 2 for the between forms, at least 1 for `IN`/`NOT IN`, exactly 1
for every other operator. Written from the claim, to be compared with the
source's `validate_value_count`. -/
def claimed_arity_ok (op : ESQLComparisonOperator) (count : Nat) : Bool :=
  match op with
  | .IS_NULL | .IS_NOT_NULL => count = 0
  | .BETWEEN | .NOT_BETWEEN => count = 2
  | .IN | .NOT_IN => decide (1 ≤ count)
  | _ => count = 1

/-! ## Leaf condition rendering (`SQLCondition.to_sql`)

Only the pieces claim C5 needs: a leaf condition whose operand is a
column renders as `<fully-qualified-name> <operator>` followed by the
operator-specific trailing text; for a single-value operator that is the
single pre-rendered value (`self._values_to_sql[0]`). -/

/-- Operand of a leaf condition: a column (by fully qualified name), a
function (by its rendered text), or a scalar subquery (by its rendered text).
The runtime `isinstance` dispatch of the source becomes a closed union. -/
inductive SQLOperand where
  | column (fully_qualified_name : String)
  | function (sql : String)
  | subquery (sql : String)
  deriving DecidableEq, Repr

/-- The operand part of `SQLCondition.to_sql`: columns render as their
fully qualified name, functions as their own `to_sql`, subqueries
parenthesized. -/
def SQLOperand.to_sql : SQLOperand → String
  | .column fqn => fqn
  | .function s => s
  | .subquery s => "(" ++ s ++ ")"

/-- `SQLCondition.to_sql` for a leaf condition, given the operand, the
operator and the pre-rendered value texts `_values_to_sql`. Mirrors the
four-way branch on the operator in the source. -/
def SQLCondition.to_sql (left : SQLOperand) (op : ESQLComparisonOperator)
    (values_to_sql : List String) : String :=
  let sql := left.to_sql ++ " " ++ op.to_sql
  match op with
  | .IS_NULL | .IS_NOT_NULL => sql
  | .BETWEEN | .NOT_BETWEEN =>
      sql ++ " " ++ values_to_sql.headD "" ++ " AND " ++ (values_to_sql.getD 1 "")
  | .IN | .NOT_IN => sql ++ " (" ++ String.intercalate ", " values_to_sql ++ ")"
  | _ => sql ++ " " ++ values_to_sql.headD ""

/-- C4: the claim's arity table requires at least one value for `IN`, but the
source skips the count check entirely for `IN`/`NOT IN` (`required_value_count
= None`), so constructing `column IN ()` with zero values succeeds. -/
theorem C4_counterexample :
    validate_value_count ESQLComparisonOperator.IN 0 = true ∧
      claimed_arity_ok ESQLComparisonOperator.IN 0 = false := by
  constructor <;> rfl

/-- C4 (amended): leaf condition construction succeeds exactly when the value
count matches the operator's arity, where the arity table is: 0 values for
IS NULL / IS NOT NULL, 2 for BETWEEN / NOT BETWEEN, any count (including 0)
for IN / NOT IN, exactly 1 for every other operator; a mismatch fails with a
plain assertion error (there is no `InvalidOperatorArityError` in the code). -/
theorem C4_validate_value_count_characterization
    (op : ESQLComparisonOperator) (count : Nat) :
    validate_value_count op count = true ↔
      (match op with
        | .IS_NULL | .IS_NOT_NULL => count = 0
        | .BETWEEN | .NOT_BETWEEN => count = 2
        | .IN | .NOT_IN => True
        | _ => count = 1) := by
  cases op <;> simp [validate_value_count, required_value_count, eq_comm]

/-- C5: in the comparison-operator table the textual value of
`GREATER_THAN_OR_EQUAL` is `"<="`, identical to `LESS_THAN_OR_EQUAL`, and a
rendered leaf condition built with `GREATER_THAN_OR_EQUAL` emits `" <= "`
(never `">="`) between the operand and the rendered value. -/
theorem C5_greater_than_or_equal_renders_as_less_than_or_equal :
    ESQLComparisonOperator.GREATER_THAN_OR_EQUAL.to_sql = "<=" ∧
    ESQLComparisonOperator.GREATER_THAN_OR_EQUAL.to_sql =
      ESQLComparisonOperator.LESS_THAN_OR_EQUAL.to_sql ∧
    ∀ (fqn value_sql : String),
      SQLCondition.to_sql (.column fqn)
          ESQLComparisonOperator.GREATER_THAN_OR_EQUAL [value_sql] =
        fqn ++ " <= " ++ value_sql := by
  refine ⟨rfl, rfl, fun fqn value_sql => ?_⟩
  simp [SQLCondition.to_sql, SQLOperand.to_sql, ESQLComparisonOperator.to_sql,
    String.append_assoc]

/-! ## Further Python-dict lemmas (used for record equality, C8) -/

theorem pyGet?_mem {α β : Type} [DecidableEq α] {d : PyDict α β} {k : α} {v : β}
    (h : pyGet? d k = some v) : (k, v) ∈ d := by
  induction d with
  | nil => simp [pyGet?] at h
  | cons kv rest ih =>
      simp only [pyGet?] at h
      by_cases hk : k = kv.1
      · rw [if_pos hk] at h
        have hkv : (k, v) = kv := by
          cases kv
          simp_all
        rw [hkv]
        exact List.mem_cons_self _ _
      · rw [if_neg hk] at h
        exact List.mem_cons_of_mem _ (ih h)

theorem mem_pyGet? {α β : Type} [DecidableEq α] {d : PyDict α β} {k : α} {v : β}
    (hnodup : (pyKeys d).Nodup) (h : (k, v) ∈ d) : pyGet? d k = some v := by
  induction d with
  | nil => simp at h
  | cons kv rest ih =>
      simp only [pyKeys, List.map_cons, List.nodup_cons] at hnodup
      rcases List.mem_cons.mp h with heq | hmem
      · subst heq
        simp [pyGet?]
      · have hk : k ≠ kv.1 := by
          intro hkk
          exact hnodup.1 (hkk ▸ List.mem_map_of_mem Prod.fst hmem)
        simp only [pyGet?, if_neg hk]
        exact ih hnodup.2 hmem

theorem pyGet?_isSome_iff {α β : Type} [DecidableEq α] (d : PyDict α β) (k : α) :
    (pyGet? d k).isSome = true ↔ k ∈ pyKeys d := by
  induction d with
  | nil => simp [pyGet?, pyKeys]
  | cons kv rest ih =>
      by_cases hk : k = kv.1
      · subst hk
        simp [pyGet?, pyKeys]
      · simp only [pyGet?, if_neg hk, pyKeys, List.map_cons, List.mem_cons]
        rw [ih]
        simp [pyKeys, hk]

/-! ## SQLRecord (`sqlrecord.py`)

A record is a Python dict from column/function identity to value, built
by `__setitem__` in insertion order. `SQLRecord.__eq__` is
`isinstance(other, SQLRecord) and self._data == other._data` — a Python
dict comparison. The key type is kept abstract (`K`): column keys compare
by object identity, function keys by fully qualified name; both give a
decidable equality. -/

/-- `SQLRecord(data)`: inserts the pairs one by one in iteration order
(`for key, value in data.items(): self[key] = value`). -/
def SQLRecord.from_data {K V : Type} [DecidableEq K] (data : List (K × V)) :
    PyDict K V :=
  data.foldl (fun acc kv => pySet acc kv.1 kv.2) []

/-- `SQLRecord.__eq__`: Python dict equality of the two `_data` dicts
(the `isinstance` guard is satisfied whenever both sides are records). -/
def SQLRecord.beq {K V : Type} [DecidableEq K] [DecidableEq V]
    (r1 r2 : PyDict K V) : Bool :=
  pyDictBeq r1 r2

/-- C8 counterexample: the records built from the pairs `a↦1, b↦2` inserted in
the two opposite orders are distinct as ordered mappings, yet
`SQLRecord.__eq__` compares them equal — Python dict equality ignores
insertion order, so record equality is not the claimed ordered equality. -/
theorem C8_counterexample :
    SQLRecord.from_data [("a", (1 : Int)), ("b", 2)] ≠
        SQLRecord.from_data [("b", (2 : Int)), ("a", 1)] ∧
      SQLRecord.beq (SQLRecord.from_data [("a", (1 : Int)), ("b", 2)])
        (SQLRecord.from_data [("b", (2 : Int)), ("a", 1)]) = true := by
  constructor
  · decide
  · decide

/-- C8 (amended): record equality is unordered structural equality — two
records are equal exactly when they hold the same key/value pairs, i.e. their
lookup functions agree on every key, regardless of insertion order. -/
theorem C8_record_equality_unordered {K V : Type} [DecidableEq K] [DecidableEq V]
    (r1 r2 : PyDict K V)
    (h1 : (pyKeys r1).Nodup) (h2 : (pyKeys r2).Nodup) :
    SQLRecord.beq r1 r2 = true ↔ ∀ k, pyGet? r1 k = pyGet? r2 k := by
  constructor
  · intro h k
    simp only [SQLRecord.beq, pyDictBeq, Bool.and_eq_true, decide_eq_true_eq,
      List.all_eq_true] at h
    obtain ⟨hlen, hsub⟩ := h
    by_cases hk : k ∈ pyKeys r1
    · obtain ⟨v, hv⟩ := Option.isSome_iff_exists.mp ((pyGet?_isSome_iff r1 k).mpr hk)
      rw [hv]
      exact (hsub (k, v) (pyGet?_mem hv)).symm
    · have hkeys : (pyKeys r1).toFinset = (pyKeys r2).toFinset := by
        apply Finset.eq_of_subset_of_card_le
        · intro x hx
          simp only [List.mem_toFinset] at hx ⊢
          obtain ⟨v, hv⟩ :=
            Option.isSome_iff_exists.mp ((pyGet?_isSome_iff r1 x).mpr hx)
          have hx2 := hsub (x, v) (pyGet?_mem hv)
          refine (pyGet?_isSome_iff r2 x).mp ?_
          rw [hx2]
          rfl
        · rw [List.toFinset_card_of_nodup h1, List.toFinset_card_of_nodup h2]
          simp only [pyKeys, List.length_map]
          omega
      have hk2 : k ∉ pyKeys r2 := by
        intro hmem
        apply hk
        have : k ∈ (pyKeys r2).toFinset := List.mem_toFinset.mpr hmem
        rw [← hkeys] at this
        exact List.mem_toFinset.mp this
      rw [pyGet?_eq_none r1 k hk, pyGet?_eq_none r2 k hk2]
  · intro h
    simp only [SQLRecord.beq, pyDictBeq, Bool.and_eq_true, decide_eq_true_eq,
      List.all_eq_true]
    have hkeys : (pyKeys r1).toFinset = (pyKeys r2).toFinset := by
      ext x
      simp only [List.mem_toFinset, ← pyGet?_isSome_iff, h x]
    constructor
    · have := congrArg Finset.card hkeys
      rw [List.toFinset_card_of_nodup h1, List.toFinset_card_of_nodup h2] at this
      simpa [pyKeys] using this
    · intro kv hkv
      rw [← h kv.1]
      exact mem_pyGet? h1 hkv

/-- Witness for the amended C8: the characterization instantiated at two
concrete equal-up-to-order records, discharging both `Nodup` hypotheses. -/
theorem C8_record_equality_unordered_witness :
    SQLRecord.beq [("a", (1 : Int)), ("b", 2)] [("b", (2 : Int)), ("a", 1)] =
        true ↔
      ∀ k, pyGet? [("a", (1 : Int)), ("b", 2)] k =
        pyGet? [("b", (2 : Int)), ("a", 1)] k :=
  C8_record_equality_unordered [("a", (1 : Int)), ("b", 2)]
    [("b", (2 : Int)), ("a", 1)] (by decide) (by decide)

/-! ## Parameter-map merging (`SQLCompoundCondition.__init__`,
`SQLSelectStatement.__init__`)

`SQLCompoundCondition.__init__` sets
`self.parameters = left.parameters | right.parameters` — a plain Python
dict union with no collision check. `SQLSelectStatement.__init__` starts
from `parameters = {}` and calls `parameters.update(...)` for the WHERE
condition's map and then for the HAVING condition's map, again without
any collision check. Parameter values are kept abstract (`V`). -/

/-- The parameter map computed by `SQLCompoundCondition.__init__` from its two
operand conditions' maps: `left.parameters | right.parameters`. -/
def SQLCompoundCondition.parameters {V : Type}
    (left_parameters right_parameters : PyDict String V) : PyDict String V :=
  pyUnion left_parameters right_parameters

/-- The parameter map computed by `SQLSelectStatement.__init__`:
`parameters = {}`, then `parameters.update(where_condition.parameters)` if a
WHERE condition is given, then `parameters.update(having_condition.parameters)`
if a HAVING condition is given. -/
def SQLSelectStatement.parameters {V : Type}
    (where_parameters having_parameters : Option (PyDict String V)) :
    PyDict String V :=
  let parameters : PyDict String V := []
  let parameters := match where_parameters with
    | some p => pyUpdate parameters p
    | none => parameters
  match having_parameters with
  | some p => pyUpdate parameters p
  | none => parameters

/-- C3 counterexample: merging two condition parameter maps that share the key
`"p"` does not fail — `SQLCompoundCondition.__init__` returns a map in which
the right operand's value 2 has silently replaced the left operand's value 1,
and a SELECT whose WHERE and HAVING maps share `"p"` likewise silently keeps
the HAVING value. -/
theorem C3_counterexample :
    SQLCompoundCondition.parameters [("p", (1 : Int))] [("p", 2)] =
        [("p", 2)] ∧
      pyGet? (SQLCompoundCondition.parameters [("p", (1 : Int))] [("p", 2)])
          "p" ≠ some 1 ∧
      SQLSelectStatement.parameters (some [("p", (1 : Int))]) (some [("p", 2)]) =
        [("p", 2)] := by
  refine ⟨by decide, by decide, by decide⟩

/-- C3 (amended): neither merge detects key collisions — both are silent
last-writer-wins Python dict unions (the right operand's, respectively the
HAVING condition's, value survives a collision). For parameter maps with
pairwise-distinct and mutually disjoint keys the merged map is exactly the
(ordered) union of the two maps, as the claim states. -/
theorem C3_disjoint_merge_is_union {V : Type}
    (left_parameters right_parameters : PyDict String V)
    (hnodupl : (pyKeys left_parameters).Nodup)
    (hnodup : (pyKeys right_parameters).Nodup)
    (hdisj : ∀ k ∈ pyKeys right_parameters, k ∉ pyKeys left_parameters) :
    SQLCompoundCondition.parameters left_parameters right_parameters =
        left_parameters ++ right_parameters ∧
      SQLSelectStatement.parameters (some left_parameters)
          (some right_parameters) =
        left_parameters ++ right_parameters := by
  constructor
  · exact pyUpdate_disjoint left_parameters right_parameters hnodup hdisj
  · show pyUpdate (pyUpdate [] left_parameters) right_parameters = _
    have hleft : pyUpdate ([] : PyDict String V) left_parameters =
        left_parameters := by
      have := pyUpdate_disjoint ([] : PyDict String V) left_parameters hnodupl
        (fun k _ => by simp [pyKeys])
      simpa using this
    rw [hleft]
    exact pyUpdate_disjoint left_parameters right_parameters hnodup hdisj

/-- Witness for the amended C3 at concrete disjoint maps. -/
theorem C3_disjoint_merge_is_union_witness :
    SQLCompoundCondition.parameters [("p", (1 : Int))] [("q", 2)] =
        [("p", (1 : Int)), ("q", 2)] ∧
      SQLSelectStatement.parameters (some [("p", (1 : Int))]) (some [("q", 2)]) =
        [("p", (1 : Int)), ("q", 2)] :=
  C3_disjoint_merge_is_union [("p", (1 : Int))] [("q", 2)] (by decide)
    (by decide) (by decide)

/-! ## Join resolution (`SQLTable.join`, `SQLTable.get_foreign_key_column`)

Columns are modelled by identity (`id`), their owning table (`table_id`)
and an optional foreign-key reference to another column's identity —
`SQLColumn` defines no `__eq__`, so Python's `in` over `table.columns`
compares object identity. `foreign_key_columns` filters the columns with
a reference; `get_foreign_key_column` returns the first of them whose
referenced column lives in the argument table; `join` tries the joined
table's side first (`table.get_foreign_key_column(self) or
self.get_foreign_key_column(table)`) and `assert`s a candidate exists. -/

structure SQLColumnE where
  id : Nat
  table_id : Nat
  reference : Option Nat
  deriving DecidableEq, Repr

structure SQLTableE where
  id : Nat
  columns : List SQLColumnE
  deriving DecidableEq, Repr

/-- `SQLTable.foreign_key_columns`: the columns with a `reference` set. -/
def SQLTableE.foreign_key_columns (t : SQLTableE) : List SQLColumnE :=
  t.columns.filter fun c => c.reference.isSome


/-- The membership test `foreign_key_column.reference in table.columns` from
`SQLTable.get_foreign_key_column`, as a predicate on the FK column: its
referenced column identity is owned by `table`. -/
def references_table (table : SQLTableE) (fk : SQLColumnE) : Bool :=
  match fk.reference with
  | some r => (table.columns.map SQLColumnE.id).contains r
  | none => false

/-- `SQLTable.get_foreign_key_column(table)`: the first FK column of `self`
whose referenced column is one of `table`'s columns, else `None`. -/
def SQLTableE.get_foreign_key_column (self table : SQLTableE) :
    Option SQLColumnE :=
  self.foreign_key_columns.find? (references_table table)

/-- `SQLTable.join(table)`: `table.get_foreign_key_column(self) or
self.get_foreign_key_column(table)` (Python `or`: the left operand if it is
not `None`, otherwise the right); `none` models the `assert` failure, and a
successful join carries the FK column together with the identity of the
referenced column its join condition equates it with
(`SQLJoin(table, foreign_key_column, foreign_key_column.reference)`). -/
def SQLTableE.join (self table : SQLTableE) : Option (SQLColumnE × Nat) :=
  let foreign_key_column :=
    match table.get_foreign_key_column self with
    | some fk => some fk
    | none => self.get_foreign_key_column table
  match foreign_key_column with
  | none => none
  | some fk =>
      match fk.reference with
      | none => none
      | some r => some (fk, r)

/-- The claim's notion of candidate FK links between two tables: FK columns on
`self` referencing a column owned by `other`, plus FK columns on `other`
referencing a column owned by `self`. Written from the claim's words, to be
compared with what `join` does. -/
def join_candidates (self other : SQLTableE) : List SQLColumnE :=
  self.foreign_key_columns.filter (references_table other) ++
    other.foreign_key_columns.filter (references_table self)

theorem get_foreign_key_column_eq_none_iff (self table : SQLTableE) :
    self.get_foreign_key_column table = none ↔
      self.foreign_key_columns.filter (references_table table) = [] := by
  simp only [SQLTableE.get_foreign_key_column, List.find?_eq_none,
    List.filter_eq_nil_iff]

/-- C7 counterexample: table 0 has two FK columns (ids 10 and 11) referencing
two different columns (ids 20 and 21) of table 1, so there are two candidate
join links; `join` nevertheless succeeds and silently picks the first FK
column instead of failing on the ambiguity. -/
theorem C7_counterexample :
    (join_candidates
        ⟨0, [⟨10, 0, some 20⟩, ⟨11, 0, some 21⟩]⟩
        ⟨1, [⟨20, 1, none⟩, ⟨21, 1, none⟩]⟩).length = 2 ∧
      SQLTableE.join
          ⟨0, [⟨10, 0, some 20⟩, ⟨11, 0, some 21⟩]⟩
          ⟨1, [⟨20, 1, none⟩, ⟨21, 1, none⟩]⟩ =
        some (⟨10, 0, some 20⟩, 20) := by
  constructor <;> rfl

/-- C7 (amended): `join(other_table)` fails exactly when there is no candidate
foreign-key link between the two tables; when one or more candidates exist it
succeeds, silently resolving any ambiguity by preferring the first FK column
on the joined table that references `self` and otherwise taking the first FK
column on `self` that references the joined table; on success the join
condition equates the chosen FK column with its referenced column. -/
theorem C7_join_characterization (self other : SQLTableE) :
    (SQLTableE.join self other = none ↔ join_candidates self other = []) ∧
      (∀ fk r, SQLTableE.join self other = some (fk, r) →
        fk.reference = some r ∧ fk ∈ join_candidates self other) := by
  have href : ∀ (t : SQLTableE) (fk : SQLColumnE),
      references_table t fk = true → ∃ r, fk.reference = some r := by
    intro t fk h
    rcases hr : fk.reference with _ | r
    · rw [references_table, hr] at h
      simp at h
    · exact ⟨r, rfl⟩
  constructor
  · constructor
    · intro h
      simp only [SQLTableE.join] at h
      rcases h1 : other.get_foreign_key_column self with _ | fk
      · rcases h2 : self.get_foreign_key_column other with _ | fk
        · simp only [join_candidates, List.append_eq_nil]
          exact ⟨(get_foreign_key_column_eq_none_iff self other).mp h2,
            (get_foreign_key_column_eq_none_iff other self).mp h1⟩
        · exfalso
          rw [h1, h2] at h
          have hp := List.find?_some h2
          obtain ⟨r, hr⟩ := href other fk hp
          simp [hr] at h
      · exfalso
        rw [h1] at h
        have hp := List.find?_some h1
        obtain ⟨r, hr⟩ := href self fk hp
        simp [hr] at h
    · intro h
      simp only [join_candidates, List.append_eq_nil] at h
      have h1 : other.get_foreign_key_column self = none :=
        (get_foreign_key_column_eq_none_iff other self).mpr h.2
      have h2 : self.get_foreign_key_column other = none :=
        (get_foreign_key_column_eq_none_iff self other).mpr h.1
      simp only [SQLTableE.join, h1, h2]
  · intro fk r hjoin
    simp only [SQLTableE.join] at hjoin
    rcases h1 : other.get_foreign_key_column self with _ | fk'
    · rcases h2 : self.get_foreign_key_column other with _ | fk'
      · rw [h1, h2] at hjoin
        simp at hjoin
      · rw [h1, h2] at hjoin
        have hp := List.find?_some h2
        obtain ⟨r', hr⟩ := href other fk' hp
        simp only [hr] at hjoin
        simp only [Option.some.injEq, Prod.mk.injEq] at hjoin
        obtain ⟨rfl, rfl⟩ := hjoin
        refine ⟨hr, ?_⟩
        simp only [join_candidates, List.mem_append]
        exact Or.inl (List.mem_filter.mpr
          ⟨List.mem_of_find?_eq_some h2, hp⟩)
    · rw [h1] at hjoin
      have hp := List.find?_some h1
      obtain ⟨r', hr⟩ := href self fk' hp
      simp only [hr] at hjoin
      simp only [Option.some.injEq, Prod.mk.injEq] at hjoin
      obtain ⟨rfl, rfl⟩ := hjoin
      refine ⟨hr, ?_⟩
      simp only [join_candidates, List.mem_append]
      exact Or.inr (List.mem_filter.mpr
        ⟨List.mem_of_find?_eq_some h1, hp⟩)

/-- Witness for the amended C7: applied to a pair of tables with exactly one
FK link, discharging the success-shaped hypothesis at the concrete join. -/
theorem C7_join_characterization_witness :
    SQLColumnE.reference ⟨10, 0, some 20⟩ = some 20 ∧
      (⟨10, 0, some 20⟩ : SQLColumnE) ∈
        join_candidates ⟨0, [⟨10, 0, some 20⟩]⟩ ⟨1, [⟨20, 1, none⟩]⟩ :=
  (C7_join_characterization ⟨0, [⟨10, 0, some 20⟩]⟩ ⟨1, [⟨20, 1, none⟩]⟩).2
    ⟨10, 0, some 20⟩ 20 rfl

/-! ## Record conversion and batch insert (`SQLRecord.to_database_parameters`,
`SQLDatabase.insert_records`)

Application values are modelled by a small closed value type; converters
(`to_database_converter` on the column/function and on its data type) are
arbitrary value functions. A record is its insertion-ordered item/value
list. `generate_parameter_name` appends a random uuid suffix to the
column's qualified name; since `insert_records` generates the template's
parameter names exactly once, the generator is modelled as the fixed
per-item name `parameter_name` carried by the item. -/

inductive PyValue where
  | int (n : Int)
  | str (s : String)
  | bool (b : Bool)
  | null
  deriving DecidableEq, Repr

/-- A column or function as seen by the record conversion pipeline: its
generated parameter name and its optional operand-level and type-level
to-database converters (`item.to_database_converter`,
`item.data_type.to_database_converter`; an absent data type contributes no
converter, so both Python `None` checks collapse into one `Option`). -/
structure SQLItemE where
  parameter_name : String
  to_database_converter : Option (PyValue → PyValue)
  data_type_to_database_converter : Option (PyValue → PyValue)

/-- `SQLRecord.to_database_value`: apply the operand-level converter first,
then the type-level converter. -/
def SQLRecord.to_database_value (item : SQLItemE) (value : PyValue) : PyValue :=
  let value := match item.to_database_converter with
    | some f => f value
    | none => value
  match item.data_type_to_database_converter with
  | some f => f value
  | none => value

/-- `SQLRecord.to_database_parameters`: fresh dict, one generated parameter
name per item, holding the item's converted value. -/
def SQLRecord.to_database_parameters (record : List (SQLItemE × PyValue)) :
    PyDict String PyValue :=
  record.foldl
    (fun parameters iv =>
      pySet parameters iv.1.parameter_name (SQLRecord.to_database_value iv.1 iv.2))
    []

/-- `for parameter, value in zip(parameters.keys(), record.values()):
parameters[parameter] = value` — the in-place overwrite `insert_records`
performs on the shared statement dict for every row after the first. Note the
values are the record's stored values, not passed through
`to_database_value`. -/
def update_parameters_by_zip (parameters : PyDict String PyValue)
    (values : List PyValue) : PyDict String PyValue :=
  (List.zip (pyKeys parameters) values).foldl
    (fun acc kv => pySet acc kv.1 kv.2) parameters

/-- The sequence of parameter dicts `SQLDatabase.insert_records` passes to
`execute`, one per record: the first row executes the template parameters
built from `records[0]` by `SQLInsertIntoStatement.__init__`
(`record.to_database_parameters()`); every later row first overwrites the
same dict's values with its own raw `record.values()` and executes that. -/
def SQLDatabase.insert_records_executed_parameters
    (first : List (SQLItemE × PyValue)) (rest : List (List (SQLItemE × PyValue))) :
    List (PyDict String PyValue) :=
  let template_parameters := SQLRecord.to_database_parameters first
  let step := fun (state : List (PyDict String PyValue) × PyDict String PyValue)
      (record : List (SQLItemE × PyValue)) =>
    let updated := update_parameters_by_zip state.2 (record.map Prod.snd)
    (state.1 ++ [updated], updated)
  (rest.foldl step ([template_parameters], template_parameters)).1

/-- The boolean-to-integer conversion `SQLBooleanDataType._to_database_value`
performs for a SQLite-bound database (`int(value)`). -/
def bool_to_database_value : PyValue → PyValue
  | .bool b => .int (if b then 1 else 0)
  | v => v

/-- The `admin BOOLEAN` column of the test schema, attached to a SQLite
database: no operand-level converter, type-level converter `int(value)`. -/
def admin_column : SQLItemE :=
  { parameter_name := "main_users_admin_0"
    to_database_converter := none
    data_type_to_database_converter := some bool_to_database_value }

/-- C2: inserting the batch `[{admin: True}, {admin: True}]` binds the
converted raw value `1` for the first row but the unconverted application
value `True` for the second row — rows after the first bypass the
operand-level/type-level to-raw pipeline, contradicting the claim (and the
spec's definition of the parameter map as the record's raw values). -/
theorem C2_second_row_bypasses_conversion :
    SQLDatabase.insert_records_executed_parameters
        [(admin_column, .bool true)] [[(admin_column, .bool true)]] =
      [[("main_users_admin_0", .int 1)],
        [("main_users_admin_0", .bool true)]] ∧
    SQLRecord.to_database_value admin_column (.bool true) = .int 1 ∧
    PyValue.bool true ≠ PyValue.int 1 := by
  refine ⟨rfl, rfl, by decide⟩

/-! ## Foreign-key-aware drop ordering (`SQLDatabase.drop_all_tables`)

Tables are vertices of a finite digraph; `ref t` is the set of tables
referenced by `t`'s FK columns (`SQLTable.referenced_tables`). The source
loops: peel the tables of the working set that are not referenced by any
table of the working set, append them to the result, and continue with
the set of referenced tables. Python `while` is modelled with explicit
fuel (`tables.card` steps always suffice on an acyclic graph, and the
source loops forever on a cyclic one). Python's arbitrary set iteration
order within one peeled batch is modelled by `Finset.toList`; the claim
only relates tables of different batches, so the choice is irrelevant. -/

/-- `referenced_tables` accumulated over the working set: every table
referenced by some FK column of some table still in the working set. -/
def referenced_tables_of {V : Type} [DecidableEq V] (ref : V → Finset V)
    (w : Finset V) : Finset V :=
  w.biUnion ref

/-- The `while unsorted_tables:` loop of `drop_all_tables`, one `Finset` per
peeled batch, with explicit fuel. -/
def drop_rounds {V : Type} [DecidableEq V] (ref : V → Finset V) :
    Nat → Finset V → List (Finset V)
  | 0, _ => []
  | fuel + 1, w =>
      if w = ∅ then []
      else
        (w \ referenced_tables_of ref w) ::
          drop_rounds ref fuel (referenced_tables_of ref w)

/-- The batches peeled by `drop_all_tables`, in drop order. -/
def drop_all_tables_rounds {V : Type} [DecidableEq V] (ref : V → Finset V)
    (tables : Finset V) : List (Finset V) :=
  drop_rounds ref tables.card tables

/-- The flat drop order (`sorted_tables`): the peeled batches concatenated
(each batch enumerated in some fixed order, standing in for Python's
arbitrary set iteration order). -/
def drop_all_tables_order {V : Type} [DecidableEq V] [LinearOrder V] (ref : V → Finset V)
    (tables : Finset V) : List V :=
  ((drop_all_tables_rounds ref tables).map fun B =>
    B.sort (fun a b => a ≤ b)).flatten

/-- `T` transitively references `U` via FK columns. -/
def references_transitively {V : Type} [DecidableEq V] (ref : V → Finset V)
    (t u : V) : Prop :=
  Relation.TransGen (fun a b => b ∈ ref a) t u

/-- An acyclic FK graph, witnessed by a rank function that strictly increases
along every FK reference (for a finite graph this is equivalent to having no
directed cycle). -/
def rank_compatible {V : Type} [DecidableEq V] (ref : V → Finset V)
    (rank : V → Nat) : Prop :=
  ∀ t u, u ∈ ref t → rank t < rank u

theorem referenced_subset {V : Type} [DecidableEq V] (ref : V → Finset V)
    (w : Finset V) (hclosed : ∀ t ∈ w, ref t ⊆ w) :
    referenced_tables_of ref w ⊆ w := by
  intro u hu
  simp only [referenced_tables_of, Finset.mem_biUnion] at hu
  obtain ⟨t, ht, hut⟩ := hu
  exact hclosed t ht hut

theorem referenced_closed {V : Type} [DecidableEq V] (ref : V → Finset V)
    (w : Finset V) (hclosed : ∀ t ∈ w, ref t ⊆ w) :
    ∀ t ∈ referenced_tables_of ref w, ref t ⊆ referenced_tables_of ref w := by
  intro t ht u hu
  have htw : t ∈ w := referenced_subset ref w hclosed ht
  simp only [referenced_tables_of, Finset.mem_biUnion]
  exact ⟨t, htw, hu⟩

theorem referenced_ssubset {V : Type} [DecidableEq V] (ref : V → Finset V)
    (w : Finset V) (rank : V → Nat) (hrank : rank_compatible ref rank)
    (hclosed : ∀ t ∈ w, ref t ⊆ w) (hne : w ≠ ∅) :
    referenced_tables_of ref w ⊂ w := by
  refine Finset.ssubset_iff_of_subset (referenced_subset ref w hclosed) |>.mpr ?_
  obtain ⟨t0, ht0, hmin⟩ :=
    Finset.exists_min_image w rank (Finset.nonempty_iff_ne_empty.mpr hne)
  refine ⟨t0, ht0, ?_⟩
  intro hmem
  simp only [referenced_tables_of, Finset.mem_biUnion] at hmem
  obtain ⟨t, ht, hut⟩ := hmem
  have h1 := hrank t t0 hut
  have h2 := hmin t ht
  omega

/-- Index of the first peeled batch containing `t`. -/
def first_round_index {V : Type} [DecidableEq V] (t : V) :
    List (Finset V) → Option Nat
  | [] => none
  | B :: Bs => if t ∈ B then some 0 else (first_round_index t Bs).map (· + 1)

theorem mem_drop_rounds {V : Type} [DecidableEq V] (ref : V → Finset V)
    (rank : V → Nat) (hrank : rank_compatible ref rank) :
    ∀ (fuel : Nat) (w : Finset V), w.card ≤ fuel → (∀ s ∈ w, ref s ⊆ w) →
      ∀ t ∈ w, ∃ k, first_round_index t (drop_rounds ref fuel w) = some k := by
  intro fuel
  induction fuel with
  | zero =>
      intro w hcard _ t ht
      rw [Nat.le_zero, Finset.card_eq_zero] at hcard
      subst hcard
      simp at ht
  | succ fuel ih =>
      intro w hcard hclosed t ht
      have hne : w ≠ ∅ := by
        intro h
        subst h
        simp at ht
      rw [drop_rounds, if_neg hne]
      by_cases hmem : t ∈ w \ referenced_tables_of ref w
      · exact ⟨0, by rw [first_round_index, if_pos hmem]⟩
      · have htr : t ∈ referenced_tables_of ref w := by
          by_contra hnot
          exact hmem (Finset.mem_sdiff.mpr ⟨ht, hnot⟩)
        have hss := referenced_ssubset ref w rank hrank hclosed hne
        have hcard' : (referenced_tables_of ref w).card ≤ fuel := by
          have := Finset.card_lt_card hss
          omega
        obtain ⟨k, hk⟩ := ih (referenced_tables_of ref w) hcard'
          (referenced_closed ref w hclosed) t htr
        exact ⟨k + 1, by simp [first_round_index, hmem, hk]⟩

theorem edge_round_lt {V : Type} [DecidableEq V] (ref : V → Finset V)
    (rank : V → Nat) (hrank : rank_compatible ref rank) :
    ∀ (fuel : Nat) (w : Finset V), w.card ≤ fuel → (∀ s ∈ w, ref s ⊆ w) →
      ∀ t u, t ∈ w → u ∈ ref t →
        ∃ i j, first_round_index t (drop_rounds ref fuel w) = some i ∧
          first_round_index u (drop_rounds ref fuel w) = some j ∧ i < j := by
  intro fuel
  induction fuel with
  | zero =>
      intro w hcard _ t u ht _
      rw [Nat.le_zero, Finset.card_eq_zero] at hcard
      subst hcard
      simp at ht
  | succ fuel ih =>
      intro w hcard hclosed t u ht hu
      have hne : w ≠ ∅ := by
        intro h
        subst h
        simp at ht
      have hur : u ∈ referenced_tables_of ref w := by
        simp only [referenced_tables_of, Finset.mem_biUnion]
        exact ⟨t, ht, hu⟩
      have hunotun : u ∉ w \ referenced_tables_of ref w := by
        simp [Finset.mem_sdiff, hur]
      have hss := referenced_ssubset ref w rank hrank hclosed hne
      have hcard' : (referenced_tables_of ref w).card ≤ fuel := by
        have := Finset.card_lt_card hss
        omega
      have hclosed' := referenced_closed ref w hclosed
      rw [drop_rounds, if_neg hne]
      by_cases hmem : t ∈ w \ referenced_tables_of ref w
      · obtain ⟨k, hk⟩ := mem_drop_rounds ref rank hrank fuel
          (referenced_tables_of ref w) hcard' hclosed' u hur
        refine ⟨0, k + 1, ?_, ?_, by omega⟩
        · rw [first_round_index, if_pos hmem]
        · simp [first_round_index, hunotun, hk]
      · have htr : t ∈ referenced_tables_of ref w := by
          by_contra hnot
          exact hmem (Finset.mem_sdiff.mpr ⟨ht, hnot⟩)
        obtain ⟨i, j, hi, hj, hij⟩ := ih (referenced_tables_of ref w) hcard'
          hclosed' t u htr hu
        refine ⟨i + 1, j + 1, ?_, ?_, by omega⟩
        · simp [first_round_index, hmem, hi]
        · simp [first_round_index, hunotun, hj]

theorem reaches_mem {V : Type} [DecidableEq V] (ref : V → Finset V)
    (w : Finset V) (hclosed : ∀ s ∈ w, ref s ⊆ w) (t u : V) (ht : t ∈ w)
    (h : references_transitively ref t u) : u ∈ w := by
  induction h with
  | single hedge => exact hclosed t ht hedge
  | tail _ hedge ih => exact hclosed _ ih hedge

theorem reaches_round_lt {V : Type} [DecidableEq V] (ref : V → Finset V)
    (rank : V → Nat) (hrank : rank_compatible ref rank)
    (fuel : Nat) (w : Finset V) (hcard : w.card ≤ fuel)
    (hclosed : ∀ s ∈ w, ref s ⊆ w) (t u : V) (ht : t ∈ w)
    (h : references_transitively ref t u) :
    ∃ i j, first_round_index t (drop_rounds ref fuel w) = some i ∧
      first_round_index u (drop_rounds ref fuel w) = some j ∧ i < j := by
  induction h with
  | single hedge => exact edge_round_lt ref rank hrank fuel w hcard hclosed _ _ ht hedge
  | tail hTb hedge ih =>
      obtain ⟨i, j, hi, hj, hij⟩ := ih
      rename_i b _
      have hb : b ∈ w := reaches_mem ref w hclosed t b ht hTb
      obtain ⟨j', k, hj', hk, hjk⟩ :=
        edge_round_lt ref rank hrank fuel w hcard hclosed b _ hb hedge
      rw [hj] at hj'
      injection hj' with hjj
      exact ⟨i, k, hi, hk, by omega⟩

theorem indexOf_append_left {V : Type} [DecidableEq V] (x : V) (l1 l2 : List V)
    (h : x ∈ l1) : (l1 ++ l2).indexOf x = l1.indexOf x := by
  induction l1 with
  | nil => simp at h
  | cons a l ih =>
      by_cases hax : a = x
      · subst hax
        simp [List.indexOf_cons_self]
      · rcases List.mem_cons.mp h with h' | h'
        · exact absurd h'.symm hax
        · simp only [List.cons_append, List.indexOf_cons]
          rw [ih h']

theorem indexOf_append_right {V : Type} [DecidableEq V] (x : V) (l1 l2 : List V)
    (h : x ∉ l1) : (l1 ++ l2).indexOf x = l1.length + l2.indexOf x := by
  induction l1 with
  | nil => simp
  | cons a l ih =>
      have hax : (a == x) = false := by
        simp only [beq_eq_false_iff_ne, ne_eq]
        intro hax
        exact h (hax ▸ List.mem_cons_self a l)
      have hxl : x ∉ l := fun hmem => h (List.mem_cons_of_mem a hmem)
      simp only [List.cons_append, List.indexOf_cons, hax, cond_false,
        List.length_cons]
      rw [ih hxl]
      omega

/-- The concatenation of the per-batch lists, batch `B` contributing
`B.sort (· ≤ ·)` (as in `drop_all_tables_order`). -/
def flatten_rounds {V : Type} [DecidableEq V] [LinearOrder V] (Bs : List (Finset V)) : List V :=
  (Bs.map fun B => B.sort (fun a b => a ≤ b)).flatten

theorem first_round_index_mem_flatten {V : Type} [DecidableEq V] [LinearOrder V] (y : V) :
    ∀ (Bs : List (Finset V)) (j : Nat), first_round_index y Bs = some j →
      y ∈ flatten_rounds Bs := by
  intro Bs
  induction Bs with
  | nil =>
      intro j h
      simp [first_round_index] at h
  | cons B Bs ih =>
      intro j h
      simp only [flatten_rounds, List.map_cons, List.flatten_cons, List.mem_append]
      rw [first_round_index] at h
      by_cases hy : y ∈ B
      · exact Or.inl ((Finset.mem_sort _).mpr hy)
      · rw [if_neg hy] at h
        rcases hfj : first_round_index y Bs with _ | j'
        · rw [hfj] at h
          simp at h
        · exact Or.inr (ih j' hfj)

theorem first_round_index_lt_position {V : Type} [DecidableEq V] [LinearOrder V] (x y : V) :
    ∀ (Bs : List (Finset V)) (i j : Nat),
      first_round_index x Bs = some i → first_round_index y Bs = some j →
      i < j →
      x ∈ flatten_rounds Bs ∧ y ∈ flatten_rounds Bs ∧
        (flatten_rounds Bs).indexOf x < (flatten_rounds Bs).indexOf y := by
  intro Bs
  induction Bs with
  | nil =>
      intro i j hi _ _
      simp [first_round_index] at hi
  | cons B Bs ih =>
      intro i j hi hj hij
      have hflat : flatten_rounds (B :: Bs) =
          B.sort (fun a b => a ≤ b) ++ flatten_rounds Bs := by
        simp [flatten_rounds]
      rw [first_round_index] at hi hj
      have hynotB : y ∉ B := by
        intro hy
        rw [if_pos hy] at hj
        injection hj with hj'
        omega
      rw [if_neg hynotB] at hj
      rcases hfj : first_round_index y Bs with _ | j'
      · rw [hfj] at hj
        simp at hj
      · rw [hfj] at hj
        simp only [Option.map_some'] at hj
        injection hj with hj'
        have hymem : y ∈ flatten_rounds Bs := first_round_index_mem_flatten y Bs j' hfj
        have hynotsort : y ∉ B.sort (fun a b => a ≤ b) := by
          intro hmem
          exact hynotB ((Finset.mem_sort _).mp hmem)
        by_cases hx : x ∈ B
        · have hxsort : x ∈ B.sort (fun a b => a ≤ b) := (Finset.mem_sort _).mpr hx
          refine ⟨?_, ?_, ?_⟩
          · rw [hflat]
            exact List.mem_append_left _ hxsort
          · rw [hflat]
            exact List.mem_append_right _ hymem
          · rw [hflat, indexOf_append_left x _ _ hxsort,
              indexOf_append_right y _ _ hynotsort]
            have hxlt : (B.sort (fun a b => a ≤ b)).indexOf x <
                (B.sort (fun a b => a ≤ b)).length :=
              List.indexOf_lt_length.mpr hxsort
            omega
        · rw [if_neg hx] at hi
          rcases hfi : first_round_index x Bs with _ | i'
          · rw [hfi] at hi
            simp at hi
          · rw [hfi] at hi
            simp only [Option.map_some'] at hi
            injection hi with hi'
            have hij' : i' < j' := by omega
            obtain ⟨hxm, hym, hlt⟩ := ih i' j' hfi hfj hij'
            have hxnotsort : x ∉ B.sort (fun a b => a ≤ b) := by
              intro hmem
              exact hx ((Finset.mem_sort _).mp hmem)
            refine ⟨?_, ?_, ?_⟩
            · rw [hflat]
              exact List.mem_append_right _ hxm
            · rw [hflat]
              exact List.mem_append_right _ hym
            · rw [hflat, indexOf_append_right x _ _ hxnotsort,
                indexOf_append_right y _ _ hynotsort]
              omega

/-- C6: on a database whose tables form an acyclic FK graph (witnessed by a
rank function that increases along references and closed under references),
the flat drop order computed by `drop_all_tables` lists every table strictly
before every table it transitively references. -/
theorem C6_drop_order_respects_references {V : Type} [DecidableEq V] [LinearOrder V]
    (ref : V → Finset V) (tables : Finset V) (rank : V → Nat)
    (hrank : rank_compatible ref rank)
    (hclosed : ∀ t ∈ tables, ref t ⊆ tables)
    (T U : V) (hT : T ∈ tables)
    (hreach : references_transitively ref T U) :
    T ∈ drop_all_tables_order ref tables ∧
      U ∈ drop_all_tables_order ref tables ∧
      (drop_all_tables_order ref tables).indexOf T <
        (drop_all_tables_order ref tables).indexOf U := by
  obtain ⟨i, j, hi, hj, hij⟩ := reaches_round_lt ref rank hrank tables.card tables
    le_rfl hclosed T U hT hreach
  have h := first_round_index_lt_position T U (drop_all_tables_rounds ref tables)
    i j hi hj hij
  simpa [drop_all_tables_order, flatten_rounds, drop_all_tables_rounds] using h

/-- The three-table FK chain A(0) → B(1) → C(2) of the spec's concrete
drop-order scenario. -/
def chain_references : Fin 3 → Finset (Fin 3) := fun t =>
  if t = 0 then {1} else if t = 1 then {2} else ∅

/-- Witness for C6: on the chain A(0) → B(1) → C(2), A is dropped strictly
before C, which it reaches transitively through B. -/
theorem C6_drop_order_respects_references_witness :
    (0 : Fin 3) ∈ drop_all_tables_order chain_references Finset.univ ∧
      (2 : Fin 3) ∈ drop_all_tables_order chain_references Finset.univ ∧
      (drop_all_tables_order chain_references Finset.univ).indexOf 0 <
        (drop_all_tables_order chain_references Finset.univ).indexOf 2 :=
  C6_drop_order_respects_references chain_references Finset.univ
    (fun t => t.val)
    (by unfold rank_compatible chain_references
        decide)
    (by decide) 0 2 (by decide)
    (Relation.TransGen.head
      (show (1 : Fin 3) ∈ chain_references 0 by decide)
      (Relation.TransGen.single (show (2 : Fin 3) ∈ chain_references 1 by decide)))

/-! ## Parsed-template cache transparency (`SQLTranspiler._parse`,
`SQLTranspiler._update_parsed_sql`)

The external SQL AST library is abstracted: `parse` is an arbitrary pure
function from template text and source dialect to an AST value of an
arbitrary type `α`; the clause rewrite of `_update_returning_and_output_clause`
(which depends on the transpiler's output dialect, of arbitrary type `δ`)
is an arbitrary in-place mutation `rewrite`, and rendering plus the textual
placeholder rewrite is an arbitrary `render`. Python object aliasing is made
explicit with a heap of AST cells: the class-level `_cache` maps
`(sql, dialect)` keys to heap references, `copy.deepcopy` allocates a fresh
cell with the same value, and the in-place clause rewrite overwrites one
cell. `transpile_sql` deep-copies the cached expression before mutating, so
the cache cell itself is never written after insertion. -/

structure TranspilerState (α : Type) where
  heap : List α
  cache : PyDict (String × Option String) Nat

/-- `SQLTranspiler._parse`: return the cached reference when the
`(sql, dialect)` key is present, otherwise parse, store the result in the
cache and return it. -/
def parse_cached {α : Type} (parse : String → Option String → α)
    (st : TranspilerState α) (sql : String) (dialect : Option String) :
    Nat × TranspilerState α :=
  match pyGet? st.cache (sql, dialect) with
  | some r => (r, st)
  | none =>
      let r := st.heap.length
      (r, { heap := st.heap ++ [parse sql dialect],
            cache := pySet st.cache (sql, dialect) r })

/-- `SQLTranspiler._update_parsed_sql`: `copy.deepcopy` the expression
(allocate a fresh cell with the same value), then mutate the copy in place
with the clause rewrite. -/
def update_parsed_sql {α : Type} (rewrite : α → α)
    (st : TranspilerState α) (r : Nat) : Nat × TranspilerState α :=
  match st.heap.get? r with
  | none => (r, st)
  | some v =>
      let r2 := st.heap.length
      (r2, { st with heap := (st.heap ++ [v]).set r2 (rewrite v) })

/-- `SQLTranspiler.transpile_sql`: parse through the cache, deep-copy and
rewrite, then render the rewritten copy. -/
def transpile_sql_modeled {α : Type} (parse : String → Option String → α)
    (rewrite : α → α) (render : α → String) (st : TranspilerState α)
    (sql : String) (dialect : Option String) : String × TranspilerState α :=
  let pr := parse_cached parse st sql dialect
  let ur := update_parsed_sql rewrite pr.2 pr.1
  match ur.2.heap.get? ur.1 with
  | some v => (render v, ur.2)
  | none => ("", ur.2)

/-- A sequence of `transpile_sql` calls through the shared class-level cache;
each request carries the template text, the source dialect, and the
transpiler's output dialect (`δ`), which selects the clause rewrite and
renderer. -/
def run_transpiles {α δ : Type} (parse : String → Option String → α)
    (rewrite : δ → α → α) (render : δ → α → String) :
    TranspilerState α → List (String × Option String × δ) →
      List String × TranspilerState α
  | st, [] => ([], st)
  | st, req :: reqs =>
      let tr := transpile_sql_modeled parse (rewrite req.2.2) (render req.2.2)
        st req.1 req.2.1
      let rest := run_transpiles parse rewrite render tr.2 reqs
      (tr.1 :: rest.1, rest.2)

/-- Cache soundness: every cache entry points to a live heap cell that still
holds exactly the parse result of its key — the cell was never mutated after
insertion. -/
def CacheValid {α : Type} (parse : String → Option String → α)
    (st : TranspilerState α) : Prop :=
  ∀ sql dialect r, pyGet? st.cache (sql, dialect) = some r →
    st.heap.get? r = some (parse sql dialect)

theorem pyGet?_pySet {α β : Type} [DecidableEq α] (d : PyDict α β) (k k' : α)
    (v : β) : pyGet? (pySet d k v) k' =
      if k' = k then some v else pyGet? d k' := by
  induction d with
  | nil => simp [pySet, pyGet?]
  | cons kv rest ih =>
      by_cases hk : k = kv.1
      · by_cases h' : k' = kv.1
        · have hkk : k' = k := h'.trans hk.symm
          simp [pySet, pyGet?, hk, h', hkk]
        · have hkk : ¬ k' = k := fun hc => h' (hc.trans hk)
          simp [pySet, pyGet?, hk, h', hkk]
      · by_cases h' : k' = kv.1
        · have hkk : ¬ k' = k := fun hc => hk (hc.symm.trans h')
          have hkv : ¬ kv.1 = k := fun hc => hk hc.symm
          simp [pySet, pyGet?, hk, h', hkk, hkv]
        · simp [pySet, pyGet?, hk, h', ih]

theorem parse_cached_spec {α : Type} (parse : String → Option String → α)
    (st : TranspilerState α) (sql : String) (dialect : Option String)
    (hvalid : CacheValid parse st) :
    (parse_cached parse st sql dialect).2.heap.get?
        (parse_cached parse st sql dialect).1 = some (parse sql dialect) ∧
      CacheValid parse (parse_cached parse st sql dialect).2 ∧
      ∃ tail, (parse_cached parse st sql dialect).2.heap = st.heap ++ tail := by
  rcases hc : pyGet? st.cache (sql, dialect) with _ | r
  · refine ⟨?_, ?_, ⟨[parse sql dialect], by simp [parse_cached, hc]⟩⟩
    · simp only [parse_cached, hc]
      exact List.get?_concat_length st.heap (parse sql dialect)
    · intro sql' dialect' r' hr'
      simp only [parse_cached, hc] at hr' ⊢
      rw [pyGet?_pySet] at hr'
      by_cases hkey : (sql', dialect') = (sql, dialect)
      · rw [if_pos hkey] at hr'
        injection hr' with hr'
        subst hr'
        have h1 : sql' = sql := congrArg Prod.fst hkey
        have h2 : dialect' = dialect := congrArg Prod.snd hkey
        subst h1
        subst h2
        exact List.get?_concat_length st.heap (parse sql' dialect')
      · rw [if_neg hkey] at hr'
        have hold := hvalid sql' dialect' r' hr'
        have hlt : r' < st.heap.length := by
          by_contra hge
          rw [List.get?_eq_none.mpr (by omega)] at hold
          exact Option.noConfusion hold
        rw [List.get?_append hlt]
        exact hold
  · refine ⟨?_, ?_, ⟨[], by simp [parse_cached, hc]⟩⟩
    · simp only [parse_cached, hc]
      exact hvalid sql dialect r hc
    · simpa [parse_cached, hc] using hvalid

theorem set_concat_length {α : Type} (l : List α) (a b : α) :
    (l ++ [a]).set l.length b = l ++ [b] := by
  induction l with
  | nil => rfl
  | cons x xs ih => simp [List.set, ih]

theorem update_parsed_sql_spec {α : Type} (parse : String → Option String → α)
    (rewrite : α → α) (st : TranspilerState α) (r : Nat) (v : α)
    (hr : st.heap.get? r = some v) (hvalid : CacheValid parse st) :
    (update_parsed_sql rewrite st r).2.heap.get?
        (update_parsed_sql rewrite st r).1 = some (rewrite v) ∧
      CacheValid parse (update_parsed_sql rewrite st r).2 := by
  simp only [update_parsed_sql, hr]
  rw [set_concat_length]
  constructor
  · exact List.get?_concat_length st.heap (rewrite v)
  · intro sql' dialect' r' hr'
    have hold := hvalid sql' dialect' r' hr'
    have hlt : r' < st.heap.length := by
      by_contra hge
      rw [List.get?_eq_none.mpr (by omega)] at hold
      exact Option.noConfusion hold
    rw [List.get?_append hlt]
    exact hold

theorem transpile_sql_modeled_spec {α : Type} (parse : String → Option String → α)
    (rewrite : α → α) (render : α → String) (st : TranspilerState α)
    (sql : String) (dialect : Option String) (hvalid : CacheValid parse st) :
    (transpile_sql_modeled parse rewrite render st sql dialect).1 =
        render (rewrite (parse sql dialect)) ∧
      CacheValid parse (transpile_sql_modeled parse rewrite render st sql dialect).2 := by
  obtain ⟨h1, h2, _⟩ := parse_cached_spec parse st sql dialect hvalid
  obtain ⟨h3, h4⟩ := update_parsed_sql_spec parse rewrite
    (parse_cached parse st sql dialect).2 (parse_cached parse st sql dialect).1
    (parse sql dialect) h1 h2
  simp only [transpile_sql_modeled, h3]
  exact ⟨trivial, h4⟩

theorem run_transpiles_spec {α δ : Type} (parse : String → Option String → α)
    (rewrite : δ → α → α) (render : δ → α → String) :
    ∀ (reqs : List (String × Option String × δ)) (st : TranspilerState α),
      CacheValid parse st →
      (run_transpiles parse rewrite render st reqs).1 =
          reqs.map (fun req => render req.2.2
            (rewrite req.2.2 (parse req.1 req.2.1))) ∧
        CacheValid parse (run_transpiles parse rewrite render st reqs).2 := by
  intro reqs
  induction reqs with
  | nil =>
      intro st hvalid
      exact ⟨rfl, hvalid⟩
  | cons req reqs ih =>
      intro st hvalid
      obtain ⟨h1, h2⟩ := transpile_sql_modeled_spec parse (rewrite req.2.2)
        (render req.2.2) st req.1 req.2.1 hvalid
      obtain ⟨h3, h4⟩ := ih _ h2
      simp only [run_transpiles, h1, h3, List.map_cons]
      exact ⟨trivial, h4⟩

/-- C10: the parsed-template cache is observationally transparent. The
external AST library is an arbitrary pure `parse`, the (output-dialect-
indexed) clause rewrite and renderer are arbitrary functions; Python object
aliasing is explicit in a heap. For every template text, source dialect and
any sequence of prior transpilations to any output dialects, `transpile_sql`
through the shared cache produces exactly the outputs of an implementation
that re-parses the template fresh on every call, and every cache cell still
holds exactly the parse result of its key — entries are never mutated after
insertion, because `_update_parsed_sql` deep-copies before rewriting. -/
theorem C10_cache_is_transparent {α δ : Type}
    (parse : String → Option String → α) (rewrite : δ → α → α)
    (render : δ → α → String) (reqs : List (String × Option String × δ)) :
    (run_transpiles parse rewrite render ⟨[], []⟩ reqs).1 =
        reqs.map (fun req => render req.2.2
          (rewrite req.2.2 (parse req.1 req.2.1))) ∧
      CacheValid parse (run_transpiles parse rewrite render ⟨[], []⟩ reqs).2 :=
  run_transpiles_spec parse rewrite render reqs ⟨[], []⟩
    (fun sql dialect r hr => Option.noConfusion hr)

/-! ## JSON value codec (`SQLRecord.to_json_value`, `SQLRecord.from_json_value`)

`to_json_value` applies the operand-level to-database converter, then
encodes `bytes` values as base64 text and `datetime.date` / `datetime.time`
/ `datetime.datetime` values as ISO-8601 text; `from_json_value` inspects
the declared native type (`item.data_type.type`) to decode, then applies
the operand-level from-database converter. The Python standard library's
`base64.b64encode` / `b64decode` and `isoformat` / `fromisoformat` are
reproduced here; text is modelled as its list of character codes, bytes as
lists of naturals below 256. Decoding raises `ValueError` on malformed
text, modelled with `Option`. -/

/-- The standard base64 alphabet: the code of the character for sextet `i`. -/
def b64_alphabet_char (i : Nat) : Nat :=
  if i < 26 then 65 + i
  else if i < 52 then 97 + (i - 26)
  else if i < 62 then 48 + (i - 52)
  else if i = 62 then 43
  else 47

/-- Sextet value of a base64 alphabet character code. -/
def b64_char_value (c : Nat) : Nat :=
  if 65 ≤ c ∧ c ≤ 90 then c - 65
  else if 97 ≤ c ∧ c ≤ 122 then 26 + (c - 97)
  else if 48 ≤ c ∧ c ≤ 57 then 52 + (c - 48)
  else if c = 43 then 62
  else 63

/-- `base64.b64encode`: 3-byte groups become 4 alphabet characters, with `=`
(code 61) padding for a trailing 1- or 2-byte group. -/
def b64encode : List Nat → List Nat
  | [] => []
  | [b1] =>
      [b64_alphabet_char (b1 / 4), b64_alphabet_char (b1 % 4 * 16), 61, 61]
  | [b1, b2] =>
      [b64_alphabet_char (b1 / 4), b64_alphabet_char (b1 % 4 * 16 + b2 / 16),
        b64_alphabet_char (b2 % 16 * 4), 61]
  | b1 :: b2 :: b3 :: rest =>
      b64_alphabet_char (b1 / 4) ::
        b64_alphabet_char (b1 % 4 * 16 + b2 / 16) ::
        b64_alphabet_char (b2 % 16 * 4 + b3 / 64) ::
        b64_alphabet_char (b3 % 64) :: b64encode rest

/-- `base64.b64decode`: 4-character groups become 3 bytes, a `=` (code 61) in
third or fourth position ends the data with 1 or 2 bytes. -/
def b64decode : List Nat → List Nat
  | c1 :: c2 :: c3 :: c4 :: rest =>
      let v1 := b64_char_value c1
      let v2 := b64_char_value c2
      if c3 = 61 then [v1 * 4 + v2 / 16]
      else
        let v3 := b64_char_value c3
        if c4 = 61 then [v1 * 4 + v2 / 16, v2 % 16 * 16 + v3 / 4]
        else
          (v1 * 4 + v2 / 16) :: (v2 % 16 * 16 + v3 / 4) ::
            (v3 % 4 * 64 + b64_char_value c4) :: b64decode rest
  | _ => []

theorem b64_char_value_alphabet (i : Nat) (h : i < 64) :
    b64_char_value (b64_alphabet_char i) = i := by
  unfold b64_alphabet_char b64_char_value
  split_ifs <;> omega

theorem b64_alphabet_char_ne_61 (i : Nat) : b64_alphabet_char i ≠ 61 := by
  unfold b64_alphabet_char
  split_ifs <;> omega

theorem b64_roundtrip : ∀ (l : List Nat), (∀ b ∈ l, b < 256) →
    b64decode (b64encode l) = l
  | [], _ => rfl
  | [b1], h => by
      have hb : b1 < 256 := h b1 (by simp)
      have h1 := b64_char_value_alphabet (b1 / 4) (by omega)
      have h2 := b64_char_value_alphabet (b1 % 4 * 16) (by omega)
      simp only [b64encode, b64decode, h1, h2, if_pos rfl, ite_true]
      congr 1
      omega
  | [b1, b2], h => by
      have hb1 : b1 < 256 := h b1 (by simp)
      have hb2 : b2 < 256 := h b2 (by simp)
      have h1 := b64_char_value_alphabet (b1 / 4) (by omega)
      have h2 := b64_char_value_alphabet (b1 % 4 * 16 + b2 / 16) (by omega)
      have h3 := b64_char_value_alphabet (b2 % 16 * 4) (by omega)
      simp only [b64encode, b64decode, h1, h2, h3,
        if_neg (b64_alphabet_char_ne_61 (b2 % 16 * 4)), if_pos rfl, ite_true]
      congr 1
      · omega
      · congr 1
        omega
  | b1 :: b2 :: b3 :: rest, h => by
      have hb1 : b1 < 256 := h b1 (by simp)
      have hb2 : b2 < 256 := h b2 (by simp)
      have hb3 : b3 < 256 := h b3 (by simp)
      have ih := b64_roundtrip rest (fun b hb => h b (by simp [hb]))
      have h1 := b64_char_value_alphabet (b1 / 4) (by omega)
      have h2 := b64_char_value_alphabet (b1 % 4 * 16 + b2 / 16) (by omega)
      have h3 := b64_char_value_alphabet (b2 % 16 * 4 + b3 / 64) (by omega)
      have h4 := b64_char_value_alphabet (b3 % 64) (by omega)
      rcases rest with _ | ⟨r1, rest'⟩
      · simp only [b64encode, b64decode, h1, h2, h3, h4,
          if_neg (b64_alphabet_char_ne_61 (b2 % 16 * 4 + b3 / 64)),
          if_neg (b64_alphabet_char_ne_61 (b3 % 64))]
        congr 1
        · omega
        · congr 1
          · omega
          · congr 1
            omega
      · rcases rest' with _ | ⟨r2, rest''⟩ <;>
        · simp only [b64encode, b64decode, h1, h2, h3, h4,
            if_neg (b64_alphabet_char_ne_61 (b2 % 16 * 4 + b3 / 64)),
            if_neg (b64_alphabet_char_ne_61 (b3 % 64))] at ih ⊢
          rw [ih]
          congr 1
          · omega
          · congr 1
            · omega
            · congr 1
              omega

/-- Zero-padded two-digit decimal (`%02d`), as a list of character codes. -/
def two_digits (n : Nat) : List Nat := [48 + n / 10, 48 + n % 10]

/-- Zero-padded four-digit decimal (`%04d`). -/
def four_digits (n : Nat) : List Nat :=
  [48 + n / 1000, 48 + n / 100 % 10, 48 + n / 10 % 10, 48 + n % 10]

/-- Zero-padded six-digit decimal (`%06d`). -/
def six_digits (n : Nat) : List Nat :=
  [48 + n / 100000, 48 + n / 10000 % 10, 48 + n / 1000 % 10,
    48 + n / 100 % 10, 48 + n / 10 % 10, 48 + n % 10]

/-- `datetime.date.isoformat`: `YYYY-MM-DD` (45 is `-`). -/
def date_isoformat (y m d : Nat) : List Nat :=
  four_digits y ++ [45] ++ two_digits m ++ [45] ++ two_digits d

/-- `datetime.time.isoformat`: `HH:MM:SS` (58 is `:`), with `.ffffff` (46 is
`.`) appended exactly when the microsecond field is nonzero. -/
def time_isoformat (h mi s us : Nat) : List Nat :=
  two_digits h ++ [58] ++ two_digits mi ++ [58] ++ two_digits s ++
    (if us = 0 then [] else 46 :: six_digits us)

/-- `datetime.datetime.isoformat`: date, `T` (84), time. -/
def datetime_isoformat (y mo d h mi s us : Nat) : List Nat :=
  date_isoformat y mo d ++ [84] ++ time_isoformat h mi s us

def is_digit (c : Nat) : Bool := decide (48 ≤ c ∧ c ≤ 57)

def two_digit_value (a b : Nat) : Nat := (a - 48) * 10 + (b - 48)

def four_digit_value (a b c d : Nat) : Nat :=
  (a - 48) * 1000 + (b - 48) * 100 + (c - 48) * 10 + (d - 48)

def six_digit_value (a b c d e f : Nat) : Nat :=
  (a - 48) * 100000 + (b - 48) * 10000 + (c - 48) * 1000 +
    (d - 48) * 100 + (e - 48) * 10 + (f - 48)

/-- `datetime.date.fromisoformat` on the canonical `YYYY-MM-DD` shape;
any other shape raises `ValueError` (`none`). -/
def date_fromisoformat : List Nat → Option (Nat × Nat × Nat)
  | [y1, y2, y3, y4, s1, m1, m2, s2, d1, d2] =>
      if is_digit y1 && is_digit y2 && is_digit y3 && is_digit y4 &&
          (s1 == 45) && is_digit m1 && is_digit m2 && (s2 == 45) &&
          is_digit d1 && is_digit d2 then
        some (four_digit_value y1 y2 y3 y4, two_digit_value m1 m2,
          two_digit_value d1 d2)
      else none
  | _ => none

/-- `datetime.time.fromisoformat` on the canonical `HH:MM:SS[.ffffff]`
shapes. -/
def time_fromisoformat : List Nat → Option (Nat × Nat × Nat × Nat)
  | [h1, h2, s1, m1, m2, s2, c1, c2] =>
      if is_digit h1 && is_digit h2 && (s1 == 58) && is_digit m1 &&
          is_digit m2 && (s2 == 58) && is_digit c1 && is_digit c2 then
        some (two_digit_value h1 h2, two_digit_value m1 m2,
          two_digit_value c1 c2, 0)
      else none
  | [h1, h2, s1, m1, m2, s2, c1, c2, p, u1, u2, u3, u4, u5, u6] =>
      if is_digit h1 && is_digit h2 && (s1 == 58) && is_digit m1 &&
          is_digit m2 && (s2 == 58) && is_digit c1 && is_digit c2 &&
          (p == 46) && is_digit u1 && is_digit u2 && is_digit u3 &&
          is_digit u4 && is_digit u5 && is_digit u6 then
        some (two_digit_value h1 h2, two_digit_value m1 m2,
          two_digit_value c1 c2, six_digit_value u1 u2 u3 u4 u5 u6)
      else none
  | _ => none

/-- `datetime.datetime.fromisoformat` on the canonical
`YYYY-MM-DDTHH:MM:SS[.ffffff]` shapes. -/
def datetime_fromisoformat :
    List Nat → Option (Nat × Nat × Nat × Nat × Nat × Nat × Nat)
  | y1 :: y2 :: y3 :: y4 :: s1 :: m1 :: m2 :: s2 :: d1 :: d2 :: t :: rest =>
      if is_digit y1 && is_digit y2 && is_digit y3 && is_digit y4 &&
          (s1 == 45) && is_digit m1 && is_digit m2 && (s2 == 45) &&
          is_digit d1 && is_digit d2 && (t == 84) then
        match time_fromisoformat rest with
        | some (h, mi, s, us) =>
            some (four_digit_value y1 y2 y3 y4, two_digit_value m1 m2,
              two_digit_value d1 d2, h, mi, s, us)
        | none => none
      else none
  | _ => none

theorem date_fromisoformat_isoformat (y m d : Nat) (hy : y < 10000)
    (hm : m < 100) (hd : d < 100) :
    date_fromisoformat (date_isoformat y m d) = some (y, m, d) := by
  have hcond :
      (is_digit (48 + y / 1000) && is_digit (48 + y / 100 % 10) &&
        is_digit (48 + y / 10 % 10) && is_digit (48 + y % 10) &&
        ((45 : Nat) == 45) && is_digit (48 + m / 10) && is_digit (48 + m % 10) &&
        ((45 : Nat) == 45) && is_digit (48 + d / 10) && is_digit (48 + d % 10)) =
        true := by
    simp only [is_digit, Bool.and_eq_true, decide_eq_true_eq, beq_self_eq_true,
      and_true]
    omega
  simp only [date_isoformat, four_digits, two_digits, List.cons_append,
    List.nil_append, date_fromisoformat, hcond, if_true]
  simp only [four_digit_value, two_digit_value, Option.some.injEq, Prod.mk.injEq]
  omega

theorem time_fromisoformat_isoformat (h mi s us : Nat) (hh : h < 100)
    (hmi : mi < 100) (hs : s < 100) (hus : us < 1000000) :
    time_fromisoformat (time_isoformat h mi s us) = some (h, mi, s, us) := by
  by_cases h0 : us = 0
  · subst h0
    have hcond :
        (is_digit (48 + h / 10) && is_digit (48 + h % 10) &&
          ((58 : Nat) == 58) && is_digit (48 + mi / 10) && is_digit (48 + mi % 10) &&
          ((58 : Nat) == 58) && is_digit (48 + s / 10) && is_digit (48 + s % 10)) =
          true := by
      simp only [is_digit, Bool.and_eq_true, decide_eq_true_eq, beq_self_eq_true,
        and_true]
      omega
    simp only [time_isoformat, two_digits, if_pos rfl, List.cons_append,
      List.nil_append, List.append_nil, ite_true, time_fromisoformat, hcond,
      if_true]
    simp only [two_digit_value, Option.some.injEq, Prod.mk.injEq, and_true,
      true_and]
    omega
  · have hcond :
        (is_digit (48 + h / 10) && is_digit (48 + h % 10) &&
          ((58 : Nat) == 58) && is_digit (48 + mi / 10) && is_digit (48 + mi % 10) &&
          ((58 : Nat) == 58) && is_digit (48 + s / 10) && is_digit (48 + s % 10) &&
          ((46 : Nat) == 46) && is_digit (48 + us / 100000) &&
          is_digit (48 + us / 10000 % 10) && is_digit (48 + us / 1000 % 10) &&
          is_digit (48 + us / 100 % 10) && is_digit (48 + us / 10 % 10) &&
          is_digit (48 + us % 10)) = true := by
      simp only [is_digit, Bool.and_eq_true, decide_eq_true_eq, beq_self_eq_true,
        and_true]
      omega
    simp only [time_isoformat, two_digits, six_digits, if_neg h0,
      List.cons_append, List.nil_append, List.append_nil, time_fromisoformat,
      hcond, if_true]
    simp only [two_digit_value, six_digit_value, Option.some.injEq, Prod.mk.injEq]
    omega

theorem datetime_fromisoformat_isoformat (y mo d h mi s us : Nat)
    (hy : y < 10000) (hmo : mo < 100) (hd : d < 100) (hh : h < 100)
    (hmi : mi < 100) (hs : s < 100) (hus : us < 1000000) :
    datetime_fromisoformat (datetime_isoformat y mo d h mi s us) =
      some (y, mo, d, h, mi, s, us) := by
  have hcond :
      (is_digit (48 + y / 1000) && is_digit (48 + y / 100 % 10) &&
        is_digit (48 + y / 10 % 10) && is_digit (48 + y % 10) &&
        ((45 : Nat) == 45) && is_digit (48 + mo / 10) && is_digit (48 + mo % 10) &&
        ((45 : Nat) == 45) && is_digit (48 + d / 10) && is_digit (48 + d % 10) &&
        ((84 : Nat) == 84)) = true := by
    simp only [is_digit, Bool.and_eq_true, decide_eq_true_eq, beq_self_eq_true,
      and_true]
    omega
  have htime := time_fromisoformat_isoformat h mi s us hh hmi hs hus
  simp only [datetime_isoformat, date_isoformat, four_digits, two_digits,
    List.cons_append, List.nil_append, List.append_assoc,
    datetime_fromisoformat, hcond, if_true, htime]
  simp only [four_digit_value, two_digit_value, Option.some.injEq, Prod.mk.injEq,
    and_true, true_and]
  omega

/-- Application/database values as the JSON codec sees them: `bytes`,
temporal values, text, numbers, `None`. -/
inductive DBValue where
  | bytes (bs : List Nat)
  | date (y m d : Nat)
  | time (h mi s us : Nat)
  | datetime (y mo d h mi s us : Nat)
  | text (cs : List Nat)
  | int (n : Int)
  | null
  deriving DecidableEq, Repr

/-- The declared native type of a data type (`item.data_type.type`): the
codec only distinguishes `bytes`, `datetime.date`, `datetime.datetime`,
`datetime.time`; everything else decodes as-is. -/
inductive PyType where
  | bytes
  | date
  | datetime
  | time
  | other
  deriving DecidableEq, Repr

/-- A column/function as the JSON codec sees it: its optional operand-level
converters and the declared native type of its optional data type. -/
structure SQLJsonItemE where
  to_database_converter : Option (DBValue → DBValue)
  from_database_converter : Option (DBValue → DBValue)
  data_type : Option PyType

/-- `item.to_database_converter(value)` when present. -/
def apply_to_database_converter (item : SQLJsonItemE) (v : DBValue) : DBValue :=
  match item.to_database_converter with
  | some f => f v
  | none => v

/-- `item.from_database_converter(value)` when present. -/
def apply_from_database_converter (item : SQLJsonItemE) (v : DBValue) : DBValue :=
  match item.from_database_converter with
  | some f => f v
  | none => v

/-- `SQLRecord.to_json_value`: apply the operand-level to-database converter,
then encode bytes as base64 text and temporal values as ISO-8601 text. -/
def SQLRecord.to_json_value (item : SQLJsonItemE) (value : DBValue) : DBValue :=
  match apply_to_database_converter item value with
  | .bytes bs => .text (b64encode bs)
  | .date y m d => .text (date_isoformat y m d)
  | .datetime y mo d h mi s us => .text (datetime_isoformat y mo d h mi s us)
  | .time h mi s us => .text (time_isoformat h mi s us)
  | v => v

/-- `SQLRecord.from_json_value`: inspect the declared native type to decode
base64/ISO-8601 text, then apply the operand-level from-database converter;
`none` models the `ValueError`/`AttributeError` raised on malformed input. -/
def SQLRecord.from_json_value (item : SQLJsonItemE) (value : DBValue) :
    Option DBValue :=
  let decoded : Option DBValue :=
    match item.data_type with
    | some .bytes =>
        match value with
        | .text cs => some (.bytes (b64decode cs))
        | _ => none
    | some .date =>
        match value with
        | .text cs =>
            match date_fromisoformat cs with
            | some (y, m, d) => some (.date y m d)
            | none => none
        | _ => none
    | some .datetime =>
        match value with
        | .text cs =>
            match datetime_fromisoformat cs with
            | some (y, mo, d, h, mi, s, us) => some (.datetime y mo d h mi s us)
            | none => none
        | _ => none
    | some .time =>
        match value with
        | .text cs =>
            match time_fromisoformat cs with
            | some (h, mi, s, us) => some (.time h mi s us)
            | none => none
        | _ => none
    | _ => some value
  match decoded with
  | none => none
  | some w => some (apply_from_database_converter item w)

/-- The value (after operand-level conversion) has the declared native type,
with the bounds Python's own `bytes`/`datetime` invariants guarantee. -/
def matches_type_and_bounds : DBValue → PyType → Prop
  | .bytes bs, .bytes => ∀ b ∈ bs, b < 256
  | .date y m d, .date => y < 10000 ∧ m < 100 ∧ d < 100
  | .time h mi s us, .time => h < 100 ∧ mi < 100 ∧ s < 100 ∧ us < 1000000
  | .datetime y mo d h mi s us, .datetime =>
      y < 10000 ∧ mo < 100 ∧ d < 100 ∧ h < 100 ∧ mi < 100 ∧ s < 100 ∧
        us < 1000000
  | _, _ => False

/-- C9: for every item whose operand-level converters are absent or mutual
inverses (hypothesis `hinv`, trivial when both are `None`) and whose declared
native type matches the converted value (hypothesis `hwf`, automatic in
Python for genuine `bytes`/`date`/`time`/`datetime` values), the JSON round
trip returns the original value: binary values pass through base64 text and
temporal values through ISO-8601 text. -/
theorem C9_json_roundtrip (item : SQLJsonItemE) (v : DBValue) (ty : PyType)
    (hty : item.data_type = some ty)
    (hwf : matches_type_and_bounds (apply_to_database_converter item v) ty)
    (hinv : apply_from_database_converter item
      (apply_to_database_converter item v) = v) :
    SQLRecord.from_json_value item (SQLRecord.to_json_value item v) = some v := by
  cases ty with
  | bytes =>
      cases hw : apply_to_database_converter item v with
      | bytes bs =>
          rw [hw] at hwf hinv
          have hjson : SQLRecord.to_json_value item v = .text (b64encode bs) := by
            simp only [SQLRecord.to_json_value, hw]
          rw [hjson]
          simp only [SQLRecord.from_json_value, hty,
            b64_roundtrip bs hwf, hinv]
      | date y m d => rw [hw] at hwf; exact hwf.elim
      | time h mi s us => rw [hw] at hwf; exact hwf.elim
      | datetime y mo d h mi s us => rw [hw] at hwf; exact hwf.elim
      | text cs => rw [hw] at hwf; exact hwf.elim
      | int n => rw [hw] at hwf; exact hwf.elim
      | null => rw [hw] at hwf; exact hwf.elim
  | date =>
      cases hw : apply_to_database_converter item v with
      | date y m d =>
          rw [hw] at hwf hinv
          obtain ⟨hy, hm, hd⟩ := hwf
          have hjson : SQLRecord.to_json_value item v =
              .text (date_isoformat y m d) := by
            simp only [SQLRecord.to_json_value, hw]
          rw [hjson]
          simp only [SQLRecord.from_json_value, hty,
            date_fromisoformat_isoformat y m d hy hm hd, hinv]
      | bytes bs => rw [hw] at hwf; exact hwf.elim
      | time h mi s us => rw [hw] at hwf; exact hwf.elim
      | datetime y mo d h mi s us => rw [hw] at hwf; exact hwf.elim
      | text cs => rw [hw] at hwf; exact hwf.elim
      | int n => rw [hw] at hwf; exact hwf.elim
      | null => rw [hw] at hwf; exact hwf.elim
  | datetime =>
      cases hw : apply_to_database_converter item v with
      | datetime y mo d h mi s us =>
          rw [hw] at hwf hinv
          obtain ⟨hy, hmo, hd, hh, hmi, hs, hus⟩ := hwf
          have hjson : SQLRecord.to_json_value item v =
              .text (datetime_isoformat y mo d h mi s us) := by
            simp only [SQLRecord.to_json_value, hw]
          rw [hjson]
          simp only [SQLRecord.from_json_value, hty,
            datetime_fromisoformat_isoformat y mo d h mi s us hy hmo hd hh hmi
              hs hus, hinv]
      | bytes bs => rw [hw] at hwf; exact hwf.elim
      | date y m d => rw [hw] at hwf; exact hwf.elim
      | time h mi s us => rw [hw] at hwf; exact hwf.elim
      | text cs => rw [hw] at hwf; exact hwf.elim
      | int n => rw [hw] at hwf; exact hwf.elim
      | null => rw [hw] at hwf; exact hwf.elim
  | time =>
      cases hw : apply_to_database_converter item v with
      | time h mi s us =>
          rw [hw] at hwf hinv
          obtain ⟨hh, hmi, hs, hus⟩ := hwf
          have hjson : SQLRecord.to_json_value item v =
              .text (time_isoformat h mi s us) := by
            simp only [SQLRecord.to_json_value, hw]
          rw [hjson]
          simp only [SQLRecord.from_json_value, hty,
            time_fromisoformat_isoformat h mi s us hh hmi hs hus, hinv]
      | bytes bs => rw [hw] at hwf; exact hwf.elim
      | date y m d => rw [hw] at hwf; exact hwf.elim
      | datetime y mo d h mi s us => rw [hw] at hwf; exact hwf.elim
      | text cs => rw [hw] at hwf; exact hwf.elim
      | int n => rw [hw] at hwf; exact hwf.elim
      | null => rw [hw] at hwf; exact hwf.elim
  | other =>
      cases hw : apply_to_database_converter item v <;>
        rw [hw] at hwf <;> exact hwf.elim

/-- Witness for C9: a converterless BLOB item round-trips the bytes
`[0, 77, 255]` through base64 text, and a converterless DATE item
round-trips the date 2024-06-09 through ISO text. -/
theorem C9_json_roundtrip_witness :
    SQLRecord.from_json_value ⟨none, none, some .bytes⟩
        (SQLRecord.to_json_value ⟨none, none, some .bytes⟩
          (.bytes [0, 77, 255])) = some (.bytes [0, 77, 255]) ∧
      SQLRecord.from_json_value ⟨none, none, some .date⟩
        (SQLRecord.to_json_value ⟨none, none, some .date⟩
          (.date 2024 6 9)) = some (.date 2024 6 9) :=
  ⟨C9_json_roundtrip ⟨none, none, some .bytes⟩ (.bytes [0, 77, 255]) .bytes rfl
      (show ∀ b ∈ [0, 77, 255], b < 256 by decide) rfl,
    C9_json_roundtrip ⟨none, none, some .date⟩ (.date 2024 6 9) .date rfl
      (show 2024 < 10000 ∧ 6 < 100 ∧ 9 < 100 by decide) rfl⟩

/-! ## Transpiler placeholder rewriting and parameter reconciliation
(`SQLTranspiler.transpile`, `transpile_sql`, `transpile_parameters`)

Text is modelled as `List Char`. The external sqlglot parse/render pair is
modelled as the identity on the template text: the spec treats the AST
service as an external collaborator, and the whole placeholder pipeline of
the source presumes that rendering preserves the template's parameter
tokens byte-for-byte (the token rewrite runs on the rendered text). The
SQL Server `DELETE ... OUTPUT` clause reordering of
`_update_output_clause`, which moves clause text containing no parameter
tokens, is likewise not modelled. Python string primitives (`str.find`
with its `-1` failure value, slicing with negative indices,
`str.replace(old, new, 1)`, `str.lstrip`) are reproduced faithfully. -/

inductive ESQLDialect where
  | MYSQL
  | POSTGRESQL
  | SQLITE
  | SQLSERVER
  deriving DecidableEq, Repr

/-- `[a-zA-Z_]` — the first character of a named parameter's name. -/
def is_word_start (c : Char) : Bool := c.isAlpha || c = '_'

/-- `[a-zA-Z0-9_]` — the remaining characters of a named parameter's name. -/
def is_word_char (c : Char) : Bool := c.isAlpha || c.isDigit || c = '_'

/-- A character that can begin a named parameter token (`[:@$]`). -/
def is_parameter_start (c : Char) : Bool := c = ':' || c = '@' || c = '$'

/-- Consume up to and including the closing quote `q`, treating a doubled
quote as an escaped quote; `none` when the literal is unterminated. -/
def consume_quoted (q : Char) : List Char → Option (List Char)
  | [] => none
  | c :: rest =>
      if c = q then
        match rest with
        | c' :: rest' => if c' = q then consume_quoted q rest' else some rest
        | [] => some []
      else consume_quoted q rest

theorem consume_quoted_length_le (q : Char) :
    ∀ (s rest2 : List Char), consume_quoted q s = some rest2 →
      rest2.length ≤ s.length
  | [], rest2, h => by simp [consume_quoted] at h
  | [c], rest2, h => by
      rw [consume_quoted] at h
      by_cases hc : c = q
      · rw [if_pos hc] at h
        injection h with h
        simp [← h]
      · rw [if_neg hc] at h
        simp [consume_quoted] at h
  | c :: c' :: rest, rest2, h => by
      rw [consume_quoted] at h
      by_cases hc : c = q
      · rw [if_pos hc] at h
        by_cases hc' : c' = q
        · rw [if_pos hc'] at h
          have := consume_quoted_length_le q rest rest2 h
          simp only [List.length_cons]
          omega
        · rw [if_neg hc'] at h
          injection h with h
          simp [← h]
      · rw [if_neg hc] at h
        have := consume_quoted_length_le q (c' :: rest) rest2 h
        simp only [List.length_cons] at this ⊢
        omega

/-- `SQLTranspiler._remove_string_literals`: blank out single-quoted
(doubled-quote escapes) and double-quoted spans. An unterminated literal is
left in place (the regex alternation simply does not match there; the
regex's backtracking on pathological unterminated quote runs is not
reproduced — every theorem below is about quote-free text, where this
function is the identity). -/
def remove_string_literals (s : List Char) : List Char :=
  match s with
  | [] => []
  | c :: rest =>
      if c = '\'' then
        match h : consume_quoted '\'' rest with
        | some rest' => remove_string_literals rest'
        | none => c :: remove_string_literals rest
      else if c = '"' then
        match h : consume_quoted '"' rest with
        | some rest' => remove_string_literals rest'
        | none => c :: remove_string_literals rest
      else c :: remove_string_literals rest
termination_by s.length
decreasing_by
  all_goals first
    | (have hle := consume_quoted_length_le _ _ _ h
       simp only [List.length_cons]
       omega)
    | (simp only [List.length_cons]
       omega)

theorem dropWhile_length_le {α : Type} (p : α → Bool) (l : List α) :
    (l.dropWhile p).length ≤ l.length := by
  induction l with
  | nil => simp
  | cons c rest ih =>
      rw [List.dropWhile_cons]
      by_cases h : p c
      · simp only [h, if_true]
        simp only [List.length_cons]
        omega
      · simp [h]

/-- The scan of `re.findall(r"(?<!:)[:@$][a-zA-Z_][a-zA-Z0-9_]*", sql)`:
left-to-right, non-overlapping; a candidate start is skipped when the
previous character is a colon (the negative lookbehind). -/
def find_named_tokens : Bool → List Char → List (List Char)
  | _, [] => []
  | prev_colon, [c] =>
      if is_parameter_start c && !prev_colon then []
      else find_named_tokens (c = ':') []
  | prev_colon, c :: d :: rest' =>
      if is_parameter_start c && !prev_colon then
        if is_word_start d then
          (c :: d :: rest'.takeWhile is_word_char) ::
            find_named_tokens false (rest'.dropWhile is_word_char)
        else find_named_tokens (c = ':') (d :: rest')
      else find_named_tokens (c = ':') (d :: rest')
termination_by _ s => s.length
decreasing_by
  all_goals simp only [List.length_cons]
  all_goals first
    | omega
    | (have hdw := dropWhile_length_le is_word_char rest'
       omega)

/-- The scan of `re.findall(r"[$@]\\d+|\\?", sql)`. -/
def find_positional_tokens : List Char → List (List Char)
  | [] => []
  | [c] =>
      if c = '?' then [[c]]
      else []
  | c :: d :: rest' =>
      if c = '?' then [c] :: find_positional_tokens (d :: rest')
      else if c = '$' || c = '@' then
        if d.isDigit then
          (c :: d :: rest'.takeWhile Char.isDigit) ::
            find_positional_tokens (rest'.dropWhile Char.isDigit)
        else find_positional_tokens (d :: rest')
      else find_positional_tokens (d :: rest')
termination_by s => s.length
decreasing_by
  all_goals simp only [List.length_cons]
  all_goals first
    | omega
    | (have hdw := dropWhile_length_le Char.isDigit rest'
       omega)

/-- `SQLTranspiler._find_named_parameters`: strip string literals, then scan
for named-parameter tokens. -/
def find_named_parameters (sql : List Char) : List (List Char) :=
  find_named_tokens false (remove_string_literals sql)

/-- `SQLTranspiler._find_positional_placeholders`. -/
def find_positional_placeholders (sql : List Char) : List (List Char) :=
  find_positional_tokens (remove_string_literals sql)

/-- `SQLTranspiler._find_named_parameters_and_positional_placeholders`. -/
def find_named_parameters_and_positional_placeholders (sql : List Char) :
    List (List Char) :=
  find_named_parameters sql ++ find_positional_placeholders sql

/-- `SQLTranspiler._is_positional_placeholder`:
`value == "?" or re.fullmatch(r"[$@]\d+", value)`. -/
def is_positional_placeholder (tok : List Char) : Bool :=
  tok == ['?'] ||
    match tok with
    | c :: d :: rest => (c = '$' || c = '@') && d.isDigit && rest.all Char.isDigit
    | _ => false

/-- `SQLTranspiler._is_named_parameter`:
`re.fullmatch(r"[:@$][a-zA-Z_][a-zA-Z0-9_]*", value)`. -/
def is_named_parameter (tok : List Char) : Bool :=
  match tok with
  | c :: d :: rest => is_parameter_start c && is_word_start d && rest.all is_word_char
  | _ => false

/-- `value.lstrip(":@$")`. -/
def lstrip_parameter_start (s : List Char) : List Char :=
  s.dropWhile is_parameter_start

/-- Smallest index `≥ i` at which `sub` occurs in `s` (scanning `s` from that
suffix), `none` when absent. -/
def find_sub_from (sub : List Char) : List Char → Nat → Option Nat
  | s, i =>
      if sub.isPrefixOf s then some i
      else
        match s with
        | [] => none
        | _ :: rest => find_sub_from sub rest (i + 1)

/-- Clamp a Python index to `[0, len]`: negative indices wrap from the end,
out-of-range indices clamp (Python slice semantics). -/
def py_index (len : Nat) (i : Int) : Nat :=
  if i < 0 then (len + i).toNat else min i.toNat len

/-- Python `s.find(sub, start)`: index of the first occurrence at or after
`start`, `-1` when absent. -/
def py_find (s sub : List Char) (start : Int) : Int :=
  match find_sub_from sub (s.drop (py_index s.length start))
      (py_index s.length start) with
  | some i => i
  | none => -1

/-- Python `s[:i]`. -/
def py_slice_to (s : List Char) (i : Int) : List Char :=
  s.take (py_index s.length i)

/-- Python `s[i:]`. -/
def py_slice_from (s : List Char) (i : Int) : List Char :=
  s.drop (py_index s.length i)

/-- Python `s.replace(old, new, 1)`: replace the first occurrence of `old`
(if any). -/
def py_replace_one (s old new : List Char) : List Char :=
  match find_sub_from old s 0 with
  | some i => s.take i ++ new ++ s.drop (i + old.length)
  | none => s

/-- Decimal digit characters. -/
def digit_char (d : Nat) : Char :=
  if d = 0 then '0'
  else if d = 1 then '1'
  else if d = 2 then '2'
  else if d = 3 then '3'
  else if d = 4 then '4'
  else if d = 5 then '5'
  else if d = 6 then '6'
  else if d = 7 then '7'
  else if d = 8 then '8'
  else '9'

/-- Decimal rendering of a natural number (as an f-string would produce). -/
def nat_to_chars (n : Nat) : List Char :=
  if h : n < 10 then [digit_char n]
  else nat_to_chars (n / 10) ++ [digit_char (n % 10)]
termination_by n
decreasing_by
  have : 10 ≤ n := Nat.le_of_not_lt h
  omega

/-- The replacement text the rewrite loop chooses for the token at position
`index` (0-based), per output dialect: SQLite keeps/creates `:name` tokens,
PostgreSQL numbers the tokens `$1, $2, …` in order of appearance, SQL Server
and MySQL use the anonymous `?`. The source's `assert False` for a token that
is neither positional nor named is unreachable (every found token fully
matches one of the two regexes); it is modelled as returning the token
unchanged. -/
def replacement_for (dialect : ESQLDialect) (index : Nat) (tok : List Char) :
    List Char :=
  match dialect with
  | .SQLITE =>
      if is_positional_placeholder tok then
        ':' :: ('p' :: 'a' :: 'r' :: 'a' :: 'm' :: 'e' :: 't' :: 'e' :: 'r' ::
          '_' :: nat_to_chars (index + 1))
      else if is_named_parameter tok then ':' :: lstrip_parameter_start tok
      else tok
  | .POSTGRESQL => '$' :: nat_to_chars (index + 1)
  | .MYSQL | .SQLSERVER => ['?']

/-- The `for index, parameter_or_placeholder in enumerate(...)` loop body of
`SQLTranspiler._update_named_parameters_and_positional_placeholders`:
find the token from the running search location in the current text, splice
in the replacement, and advance the search location past it. -/
def update_tokens_loop (dialect : ESQLDialect) :
    List (List Char) → Nat → Int → List Char → List Char
  | [], _, _, sql => sql
  | tok :: toks, index, search_location, sql =>
      update_tokens_loop dialect toks (index + 1)
        (py_find sql tok search_location +
          (replacement_for dialect index tok).length)
        (py_slice_to sql (py_find sql tok search_location) ++
          py_replace_one (py_slice_from sql (py_find sql tok search_location))
            tok (replacement_for dialect index tok))

/-- `SQLTranspiler._update_named_parameters_and_positional_placeholders`. -/
def update_named_parameters_and_positional_placeholders
    (dialect : ESQLDialect) (sql : List Char) : List Char :=
  update_tokens_loop dialect
    (find_named_parameters_and_positional_placeholders sql) 0 0 sql

/-- `SQLTranspiler.transpile_sql`, with the external parse/render pair as the
identity on the template text (see the section comment). -/
def transpile_sql (dialect : ESQLDialect) (sql : List Char) : List Char :=
  update_named_parameters_and_positional_placeholders dialect sql

/-- The parameter collection accompanying a statement: a Python dict keyed by
parameter name, or a flat sequence. Values are abstract (`V`). -/
inductive PyParams (V : Type) where
  | dict (d : PyDict (List Char) V)
  | seq (l : List V)
  deriving DecidableEq

/-- Python list indexing `l[i]` (negative indices wrap; out of range raises
`IndexError`, modelled as `none`). -/
def py_list_get {V : Type} (l : List V) (i : Int) : Option V :=
  if i < 0 then
    if (l.length : Int) + i < 0 then none
    else l.get? ((l.length : Int) + i).toNat
  else l.get? i.toNat

/-- `int(...)` on a digit string. -/
def digits_to_nat (s : List Char) : Nat :=
  s.foldl (fun acc c => acc * 10 + (c.toNat - 48)) 0

/-- The f-string prefix `"parameter_"` used for generated positional
parameter names. -/
def parameter_name_chars (n : Nat) : List Char :=
  'p' :: 'a' :: 'r' :: 'a' :: 'm' :: 'e' :: 't' :: 'e' :: 'r' :: '_' ::
    nat_to_chars n

/-- `SQLTranspiler._sort_parameters`. For a dict: rebuild it keyed by the
named parameters found in the template, in their order of appearance (a
missing key raises `KeyError`, modelled as `none`; a repeated name collapses
because dict keys are unique). For a sequence: reorder by the explicit `$k`
ordinal markers when every placeholder carries one, keep as-is when none do,
and fail (`assert False`) otherwise. -/
def sort_parameters {V : Type} (sql : List Char) :
    PyParams V → Option (PyParams V)
  | .dict d =>
      (((find_named_parameters sql).foldlM
        (fun acc tok =>
          match pyGet? d (lstrip_parameter_start tok) with
          | some v => some (pySet acc (lstrip_parameter_start tok) v)
          | none => none) ([] : PyDict (List Char) V)).map PyParams.dict)
  | .seq l =>
      let placeholders := find_positional_placeholders sql
      let indexes := (placeholders.filter fun ph => ph.headD ' ' = '$').map
        fun ph => (digits_to_nat (ph.dropWhile fun c => c = '$') : Int) - 1
      if indexes.length = l.length then
        (indexes.mapM (py_list_get l)).map PyParams.seq
      else if indexes.length = 0 then some (.seq l)
      else none

/-- `SQLTranspiler.transpile_parameters`: `None` becomes the empty tuple;
otherwise sort, then convert a dict to a value tuple for the positional
dialects (SQL Server, PostgreSQL, MySQL) and a sequence to a
`parameter_<n>`-keyed dict for SQLite. -/
def transpile_parameters {V : Type} (dialect : ESQLDialect) (sql : List Char)
    (parameters : Option (PyParams V)) : Option (PyParams V) :=
  match parameters with
  | none => some (.seq [])
  | some p =>
      match sort_parameters sql p with
      | none => none
      | some sorted =>
          match sorted, dialect with
          | .dict d, .SQLSERVER | .dict d, .POSTGRESQL | .dict d, .MYSQL =>
              some (.seq (pyValues d))
          | .seq l, .SQLITE =>
              some (.dict (((List.range l.length).zip l).map
                fun iv => (parameter_name_chars (iv.1 + 1), iv.2)))
          | s, _ => some s

/-- `SQLTranspiler.transpile`: rewrite the text and reconcile the parameter
collection (the parameters are reconciled against the original template). -/
def SQLTranspiler.transpile {V : Type} (dialect : ESQLDialect) (sql : List Char)
    (parameters : Option (PyParams V)) :
    List Char × Option (PyParams V) :=
  (transpile_sql dialect sql, transpile_parameters dialect sql parameters)

/-- The number of placeholder tokens (named or positional) in a SQL text, as
the transpiler itself counts them. -/
def count_placeholders (sql : List Char) : Nat :=
  (find_named_parameters_and_positional_placeholders sql).length

/-- C1 counterexample: the template `SELECT :a, :a` repeats one logical named
parameter. Transpiled to PostgreSQL with the map `{a: 18}`, the rewritten
text `SELECT $1, $2` carries two placeholder tokens, but the reconciled
collection is the one-element tuple `(18,)` — the dict comprehension of
`_sort_parameters` collapses the repeated name, so the placeholder count and
the parameter count differ and the second placeholder has no parameter at
its position. -/
theorem C1_counterexample :
    SQLTranspiler.transpile ESQLDialect.POSTGRESQL ("SELECT :a, :a".toList)
        (some (.dict [("a".toList, (18 : Int))])) =
      ("SELECT $1, $2".toList, some (.seq [18])) ∧
      count_placeholders ("SELECT $1, $2".toList) = 2 := by
  constructor
  · simp [SQLTranspiler.transpile, transpile_sql,
      update_named_parameters_and_positional_placeholders,
      find_named_parameters_and_positional_placeholders, find_named_parameters,
      find_positional_placeholders, remove_string_literals, consume_quoted,
      find_named_tokens, find_positional_tokens, is_parameter_start,
      is_word_start, is_word_char, update_tokens_loop, py_find, py_index,
      find_sub_from, py_slice_to, py_slice_from, py_replace_one,
      replacement_for, is_positional_placeholder, is_named_parameter,
      lstrip_parameter_start, nat_to_chars, digit_char, transpile_parameters,
      sort_parameters, pyGet?, pySet, pyValues, String.toList, String.data,
      List.takeWhile, List.dropWhile, List.isPrefixOf]
  · simp [count_placeholders, find_named_parameters_and_positional_placeholders,
      find_named_parameters, find_positional_placeholders,
      remove_string_literals, consume_quoted, find_named_tokens,
      find_positional_tokens, is_parameter_start, is_word_start, is_word_char,
      List.takeWhile, List.dropWhile]

/-- A generated named-parameter token `:name`, as the statement templates of
this system contain (the template dialect is SQLite). -/
def named_token (nm : List Char) : List Char := ':' :: nm

/-- A template interleaving plain SQL text with named-parameter tokens:
`first ++ :nm1 ++ seg1 ++ :nm2 ++ seg2 ++ …`. -/
def build_template (first : List Char)
    (parts : List (List Char × List Char)) : List Char :=
  first ++ (parts.map fun p => named_token p.1 ++ p.2).flatten

/-- The rewritten tail the token loop produces: each token replaced by its
dialect's placeholder (numbered from `k`), segments untouched. -/
def build_output (dialect : ESQLDialect) :
    Nat → List (List Char × List Char) → List Char
  | _, [] => []
  | k, p :: parts =>
      replacement_for dialect k (named_token p.1) ++ p.2 ++
        build_output dialect (k + 1) parts

/-- Plain template text: no parameter-start characters, no positional
markers, no quotes. -/
def clean_segment (seg : List Char) : Prop :=
  ∀ c ∈ seg, is_parameter_start c = false ∧ c ≠ '?' ∧ c ≠ '\'' ∧ c ≠ '"'

/-- The segment does not begin with a word character (so a preceding token's
maximal-munch name, or a numbered placeholder's digits, stop at it). -/
def boundary_segment (seg : List Char) : Prop :=
  ∀ c ∈ seg.take 1, is_word_char c = false

/-- A syntactically valid parameter name: `[a-zA-Z_][a-zA-Z0-9_]*`. -/
def valid_name (nm : List Char) : Prop :=
  ∃ d w, nm = d :: w ∧ is_word_start d = true ∧ ∀ c ∈ w, is_word_char c = true

/-- The parameter maps reconciled by `transpile_parameters` for a template of
`parts.length` named parameters bound through `lookup`: a name-keyed dict for
SQLite, a value tuple in template order for the positional dialects. -/
def reconciled_parameters {V : Type} (dialect : ESQLDialect)
    (parts : List (List Char × List Char)) (lookup : List Char → V) :
    PyParams V :=
  match dialect with
  | .SQLITE => .dict (parts.map fun p => (p.1, lookup p.1))
  | _ => .seq (parts.map fun p => lookup p.1)

theorem takeWhile_word_append (p : Char → Bool) :
    ∀ (w rest : List Char), (∀ c ∈ w, p c = true) →
      (∀ c ∈ rest.take 1, p c = false) →
      (w ++ rest).takeWhile p = w ∧ (w ++ rest).dropWhile p = rest := by
  intro w
  induction w with
  | nil =>
      intro rest _ hrest
      rcases rest with _ | ⟨c, rest'⟩
      · exact ⟨rfl, rfl⟩
      · have hc : p c = false := hrest c (by simp)
        simp [List.takeWhile_cons, List.dropWhile_cons, hc]
  | cons c w' ih =>
      intro rest hw hrest
      have hc : p c = true := hw c (by simp)
      obtain ⟨h1, h2⟩ := ih rest (fun c hc' => hw c (by simp [hc'])) hrest
      simp [List.takeWhile_cons, List.dropWhile_cons, hc, h1, h2]

theorem remove_string_literals_id : ∀ (s : List Char),
    (∀ c ∈ s, c ≠ '\'' ∧ c ≠ '"') → remove_string_literals s = s
  | [], _ => by rw [remove_string_literals]
  | c :: rest, h => by
      have hc := h c (by simp)
      rw [remove_string_literals]
      rw [if_neg hc.1, if_neg hc.2]
      rw [remove_string_literals_id rest (fun c' hc' => h c' (by simp [hc']))]

theorem find_named_tokens_nil (prev : Bool) :
    find_named_tokens prev [] = [] := by
  rw [find_named_tokens]

theorem find_named_tokens_clean :
    ∀ (seg : List Char) (prev : Bool) (rest : List Char),
      (∀ c ∈ seg, is_parameter_start c = false) →
      find_named_tokens prev (seg ++ rest) =
        if seg = [] then find_named_tokens prev rest
        else find_named_tokens false rest := by
  intro seg
  induction seg with
  | nil =>
      intro prev rest _
      simp
  | cons c seg' ih =>
      intro prev rest hclean
      have hc : is_parameter_start c = false := (hclean c (by simp))
      have hcolon : decide (c = ':') = false := by
        simp only [is_parameter_start, Bool.or_eq_false_iff,
          decide_eq_false_iff_not] at hc
        simp [hc.1]
      rcases hsr : seg' ++ rest with _ | ⟨d, t⟩
      · have hseg' : seg' = [] := by
          rcases seg' with _ | _
          · rfl
          · simp at hsr
        have hrest : rest = [] := by
          subst hseg'
          simpa using hsr
        subst hseg'
        subst hrest
        rw [if_neg (List.cons_ne_nil c [])]
        rw [find_named_tokens_nil]
        rw [find_named_tokens.eq_def]
        simp [hc, find_named_tokens_nil]
      · have hstep : find_named_tokens prev (c :: seg' ++ rest) =
            find_named_tokens (decide (c = ':')) (seg' ++ rest) := by
          simp only [List.cons_append, hsr]
          rw [find_named_tokens]
          rw [if_neg (by simp [hc])]
        rw [List.cons_append] at hstep ⊢
        rw [hstep, hcolon, ih false rest
          (fun c' hc' => hclean c' (by simp [hc']))]
        rw [ite_self, if_neg (List.cons_ne_nil c seg')]

theorem find_named_tokens_token (nm rest : List Char)
    (hnm : valid_name nm)
    (hrest : ∀ c ∈ rest.take 1, is_word_char c = false) :
    find_named_tokens false (named_token nm ++ rest) =
      named_token nm :: find_named_tokens false rest := by
  obtain ⟨d, w, rfl, hd, hw⟩ := hnm
  obtain ⟨ht, hdr⟩ := takeWhile_word_append is_word_char w rest hw hrest
  show find_named_tokens false (':' :: d :: (w ++ rest)) = _
  rw [find_named_tokens]
  rw [if_pos (by simp [is_parameter_start])]
  rw [if_pos hd, ht, hdr]
  rfl

theorem boundary_append (seg X : List Char) (hseg : boundary_segment seg)
    (hX : ∀ c ∈ X.take 1, is_word_char c = false) :
    ∀ c ∈ (seg ++ X).take 1, is_word_char c = false := by
  rcases seg with _ | ⟨c, seg'⟩
  · simpa using hX
  · intro c' hc'
    simp only [List.cons_append, List.take_succ_cons, List.take_zero,
      List.mem_singleton] at hc'
    subst hc'
    exact hseg c' (by simp)

theorem flatten_parts_take_one (parts : List (List Char × List Char)) :
    ∀ c ∈ ((parts.map fun p => named_token p.1 ++ p.2).flatten).take 1,
      is_word_char c = false := by
  rcases parts with _ | ⟨p, parts'⟩
  · simp
  · intro c hc
    simp only [List.map_cons, List.flatten_cons, named_token,
      List.cons_append, List.take_succ_cons, List.take_zero,
      List.mem_singleton] at hc
    subst hc
    decide

theorem find_named_tokens_build :
    ∀ (parts : List (List Char × List Char)) (first : List Char),
      (∀ c ∈ first, is_parameter_start c = false) →
      (∀ p ∈ parts, valid_name p.1 ∧ clean_segment p.2 ∧ boundary_segment p.2) →
      find_named_tokens false (build_template first parts) =
        parts.map fun p => named_token p.1 := by
  intro parts
  induction parts with
  | nil =>
      intro first hfirst _
      show find_named_tokens false (first ++ []) = []
      rw [find_named_tokens_clean first false [] hfirst]
      rw [ite_self, find_named_tokens_nil]
  | cons p parts' ih =>
      intro first hfirst hparts
      obtain ⟨hname, hclean, hbound⟩ := hparts p (by simp)
      have hparts' : ∀ q ∈ parts', valid_name q.1 ∧ clean_segment q.2 ∧
          boundary_segment q.2 := fun q hq => hparts q (by simp [hq])
      show find_named_tokens false
          (first ++ (named_token p.1 ++ p.2 ++
            (parts'.map fun q => named_token q.1 ++ q.2).flatten)) = _
      rw [find_named_tokens_clean first false _ hfirst, ite_self]
      rw [List.append_assoc (named_token p.1)]
      rw [find_named_tokens_token p.1 _ hname
        (boundary_append p.2 _ hbound (flatten_parts_take_one parts'))]
      have hrec := ih p.2 (fun c hc => (hclean c hc).1) hparts'
      rw [show build_template p.2 parts' =
          p.2 ++ (parts'.map fun q => named_token q.1 ++ q.2).flatten from rfl]
        at hrec
      rw [hrec]
      simp

theorem find_positional_tokens_none :
    ∀ (s : List Char),
      (∀ c ∈ s, c ≠ '?' ∧ (c = '$' || c = '@') = false) →
      find_positional_tokens s = []
  | [], _ => by rw [find_positional_tokens]
  | [c], h => by
      have hc := h c (by simp)
      rw [find_positional_tokens]
      rw [if_neg hc.1]
  | c :: d :: t, h => by
      have hc := h c (by simp)
      rw [find_positional_tokens.eq_def]
      simp only [hc.1, hc.2, if_false, Bool.false_eq_true]
      have := find_positional_tokens_none (d :: t)
        (fun c' hc' => h c' (by simp at hc' ⊢; tauto))
      simp only at this
      simp [this, hc.1, hc.2]

theorem word_char_not_special (c : Char) (h : is_word_char c = true) :
    c ≠ '?' ∧ (c = '$' || c = '@') = false ∧ is_parameter_start c = false ∧
      c ≠ '\'' ∧ c ≠ '"' := by
  refine ⟨?_, ?_, ?_, ?_, ?_⟩
  · rintro rfl
    exact absurd h (by decide)
  · by_contra hb
    rw [Bool.not_eq_false, Bool.or_eq_true] at hb
    rcases hb with hb | hb <;>
      · rw [decide_eq_true_eq] at hb
        subst hb
        exact absurd h (by decide)
  · by_contra hb
    rw [Bool.not_eq_false] at hb
    simp only [is_parameter_start, Bool.or_eq_true, decide_eq_true_eq] at hb
    rcases hb with (rfl | rfl) | rfl <;> exact absurd h (by decide)
  · rintro rfl
    exact absurd h (by decide)
  · rintro rfl
    exact absurd h (by decide)

theorem build_template_chars (first : List Char)
    (parts : List (List Char × List Char))
    (hfirst : clean_segment first)
    (hparts : ∀ p ∈ parts, valid_name p.1 ∧ clean_segment p.2) :
    ∀ c ∈ build_template first parts,
      c ≠ '\'' ∧ c ≠ '"' ∧ c ≠ '?' ∧ (c = '$' || c = '@') = false := by
  intro c hc
  simp only [build_template, List.mem_append, List.mem_flatten,
    List.mem_map] at hc
  rcases hc with hc | ⟨l, ⟨p, hp, rfl⟩, hcl⟩
  · obtain ⟨h1, h2, h3, h4⟩ := hfirst c hc
    refine ⟨h3, h4, h2, ?_⟩
    simp only [is_parameter_start, Bool.or_eq_false_iff,
      decide_eq_false_iff_not] at h1
    simp [h1.1.2, h1.2]
  · obtain ⟨hname, hclean⟩ := hparts p hp
    simp only [named_token, List.cons_append, List.mem_cons,
      List.mem_append] at hcl
    rcases hcl with rfl | hcl
    · decide
    rcases hcl with hcl | hcl
    · obtain ⟨d, w, hn, hd, hw⟩ := hname
      rw [hn] at hcl
      have hword : is_word_char c = true := by
        rcases List.mem_cons.mp hcl with rfl | hmem
        · simp only [is_word_char, is_word_start] at hd ⊢
          rcases Bool.or_eq_true _ _ |>.mp hd with h | h <;> simp [h]
        · exact hw c hmem
      obtain ⟨h1, h2, _, h4, h5⟩ := word_char_not_special c hword
      exact ⟨h4, h5, h1, h2⟩
    · obtain ⟨h1, h2, h3, h4⟩ := hclean c hcl
      refine ⟨h3, h4, h2, ?_⟩
      simp only [is_parameter_start, Bool.or_eq_false_iff,
        decide_eq_false_iff_not] at h1
      simp [h1.1.2, h1.2]

theorem isPrefixOf_self_append (l r : List Char) :
    l.isPrefixOf (l ++ r) = true := by
  induction l with
  | nil => simp [List.isPrefixOf]
  | cons a l' ih => simp [List.isPrefixOf, ih]

theorem find_sub_from_token (nm : List Char) :
    ∀ (seg : List Char) (rest : List Char) (i : Nat),
      (∀ c ∈ seg, c ≠ ':') →
      find_sub_from (':' :: nm) (seg ++ ((':' :: nm) ++ rest)) i =
        some (i + seg.length) := by
  intro seg
  induction seg with
  | nil =>
      intro rest i _
      rw [List.nil_append, find_sub_from.eq_def]
      show (if (':' :: nm).isPrefixOf ((':' :: nm) ++ rest) = true then
          some i else _) = _
      rw [if_pos (isPrefixOf_self_append (':' :: nm) rest)]
      simp
  | cons c seg' ih =>
      intro rest i hseg
      have hc : c ≠ ':' := hseg c (by simp)
      rw [List.cons_append, find_sub_from.eq_def]
      show (if (':' :: nm).isPrefixOf (c :: (seg' ++ ((':' :: nm) ++ rest))) =
          true then some i else _) = _
      rw [if_neg ?hpre]
      case hpre =>
        simp only [List.isPrefixOf]
        intro hcontra
        rw [Bool.and_eq_true, beq_iff_eq] at hcontra
        exact hc hcontra.1.symm
      show find_sub_from (':' :: nm) (seg' ++ ((':' :: nm) ++ rest)) (i + 1) = _
      rw [ih rest (i + 1) (fun c' hc' => hseg c' (by simp [hc']))]
      simp only [List.length_cons, Option.some.injEq]
      omega

theorem py_replace_one_head (tok X repl : List Char) :
    py_replace_one (tok ++ X) tok repl = repl ++ X := by
  unfold py_replace_one
  rw [find_sub_from.eq_def]
  show (match (if tok.isPrefixOf (tok ++ X) = true then some 0 else _) with
      | some i => List.take i (tok ++ X) ++ repl ++
          List.drop (i + tok.length) (tok ++ X)
      | none => tok ++ X) = repl ++ X
  rw [if_pos (isPrefixOf_self_append tok X)]
  show List.take 0 (tok ++ X) ++ repl ++
      List.drop (0 + tok.length) (tok ++ X) = repl ++ X
  rw [List.take_zero, Nat.zero_add, List.drop_left, List.nil_append]

theorem py_find_token (P seg nm rest : List Char)
    (hseg : ∀ c ∈ seg, c ≠ ':') :
    py_find (P ++ (seg ++ ((':' :: nm) ++ rest))) (':' :: nm)
        (P.length : Int) =
      ((P.length + seg.length : Nat) : Int) := by
  unfold py_find py_index
  rw [if_neg (by omega)]
  have hlen : P.length ≤ (P ++ (seg ++ ((':' :: nm) ++ rest))).length := by
    simp only [List.length_append]
    omega
  rw [Int.toNat_natCast, min_eq_left hlen, List.drop_left]
  rw [find_sub_from_token nm seg rest P.length hseg]

theorem py_slice_to_two (P seg X : List Char) :
    py_slice_to (P ++ (seg ++ X)) ((P.length + seg.length : Nat) : Int) =
      P ++ seg := by
  unfold py_slice_to py_index
  rw [if_neg (by omega), Int.toNat_natCast,
    min_eq_left (by simp only [List.length_append]; omega)]
  rw [show P ++ (seg ++ X) = (P ++ seg) ++ X from
    (List.append_assoc P seg X).symm]
  rw [show P.length + seg.length = (P ++ seg).length from
    (List.length_append P seg).symm]
  exact List.take_left (P ++ seg) X

theorem py_slice_from_two (P seg X : List Char) :
    py_slice_from (P ++ (seg ++ X)) ((P.length + seg.length : Nat) : Int) =
      X := by
  unfold py_slice_from py_index
  rw [if_neg (by omega), Int.toNat_natCast,
    min_eq_left (by simp only [List.length_append]; omega)]
  rw [show P ++ (seg ++ X) = (P ++ seg) ++ X from
    (List.append_assoc P seg X).symm]
  rw [show P.length + seg.length = (P ++ seg).length from
    (List.length_append P seg).symm]
  exact List.drop_left (P ++ seg) X

theorem update_tokens_loop_build (dialect : ESQLDialect) :
    ∀ (parts : List (List Char × List Char)) (k : Nat) (P seg : List Char),
      (∀ c ∈ seg, c ≠ ':') →
      (∀ p ∈ parts, ∀ c ∈ p.2, c ≠ ':') →
      update_tokens_loop dialect (parts.map fun p => named_token p.1) k
          (P.length : Int)
          (P ++ (seg ++ (parts.map fun p => named_token p.1 ++ p.2).flatten)) =
        P ++ (seg ++ build_output dialect k parts) := by
  intro parts
  induction parts with
  | nil =>
      intro k P seg _ _
      rw [List.map_nil, update_tokens_loop, build_output]
      simp
  | cons p parts' ih =>
      intro k P seg hseg hparts
      have hseg2 : ∀ c ∈ p.2, c ≠ ':' := fun c hc => hparts p (by simp) c hc
      have hparts' : ∀ q ∈ parts', ∀ c ∈ q.2, c ≠ ':' :=
        fun q hq => hparts q (by simp [hq])
      rw [List.map_cons, update_tokens_loop]
      have hsql : P ++ (seg ++
            ((p :: parts').map fun q => named_token q.1 ++ q.2).flatten) =
          P ++ (seg ++ ((':' :: p.1) ++
            (p.2 ++ (parts'.map fun q => named_token q.1 ++ q.2).flatten))) := by
        simp [named_token, List.append_assoc]
      rw [show named_token p.1 = ':' :: p.1 from rfl, hsql]
      rw [py_find_token P seg p.1
        (p.2 ++ (parts'.map fun q => named_token q.1 ++ q.2).flatten) hseg]
      rw [py_slice_to_two P seg _, py_slice_from_two P seg _]
      rw [py_replace_one_head (':' :: p.1) _
        (replacement_for dialect k (':' :: p.1))]
      have harg1 : (((P.length + seg.length : Nat) : Int) +
            ((replacement_for dialect k (':' :: p.1)).length : Int)) =
          ((((P ++ seg) ++ replacement_for dialect k (':' :: p.1)).length :
            Nat) : Int) := by
        simp only [List.length_append]
        push_cast
        ring
      have harg2 : (P ++ seg) ++
            (replacement_for dialect k (':' :: p.1) ++
              (p.2 ++ (parts'.map fun q => named_token q.1 ++ q.2).flatten)) =
          ((P ++ seg) ++ replacement_for dialect k (':' :: p.1)) ++
            (p.2 ++ (parts'.map fun q => named_token q.1 ++ q.2).flatten) := by
        simp [List.append_assoc]
      rw [harg1, harg2]
      rw [ih (k + 1) ((P ++ seg) ++ replacement_for dialect k (':' :: p.1))
        p.2 hseg2 hparts']
      rw [build_output]
      rw [show named_token p.1 = ':' :: p.1 from rfl]
      simp [List.append_assoc]

theorem word_start_not_parameter_start (d : Char)
    (h : is_word_start d = true) : is_parameter_start d = false := by
  by_contra hb
  rw [Bool.not_eq_false] at hb
  simp only [is_parameter_start, Bool.or_eq_true, decide_eq_true_eq] at hb
  rcases hb with (rfl | rfl) | rfl <;> exact absurd h (by decide)

theorem lstrip_named_token (nm : List Char) (h : valid_name nm) :
    lstrip_parameter_start (named_token nm) = nm := by
  obtain ⟨d, w, rfl, hd, _⟩ := h
  show List.dropWhile is_parameter_start (':' :: d :: w) = d :: w
  rw [List.dropWhile_cons, if_pos (by decide), List.dropWhile_cons,
    if_neg (by simp [word_start_not_parameter_start d hd])]

theorem digit_char_facts (d : Nat) :
    (digit_char d).isDigit = true ∧ is_word_start (digit_char d) = false ∧
      is_word_char (digit_char d) = true ∧
      is_parameter_start (digit_char d) = false ∧ digit_char d ≠ '?' ∧
      ((digit_char d) = '$' || (digit_char d) = '@') = false ∧
      digit_char d ≠ ':' ∧ digit_char d ≠ '\'' ∧ digit_char d ≠ '"' := by
  unfold digit_char
  split_ifs <;> exact (by decide)

theorem nat_to_chars_facts : ∀ (n : Nat),
    nat_to_chars n ≠ [] ∧ ∀ c ∈ nat_to_chars n,
      c.isDigit = true ∧ is_word_start c = false ∧ is_word_char c = true ∧
        is_parameter_start c = false ∧ c ≠ '?' ∧
        ((c = '$' || c = '@') : Bool) = false ∧ c ≠ ':' ∧ c ≠ '\'' ∧
        c ≠ '"' := by
  intro n
  induction n using Nat.strong_induction_on with
  | _ n ih =>
      rw [nat_to_chars.eq_def]
      by_cases h : n < 10
      · rw [dif_pos h]
        refine ⟨by simp, ?_⟩
        intro c hc
        rw [List.mem_singleton] at hc
        subst hc
        obtain ⟨h1, h2, h3, h4, h5, h6, h7, h8, h9⟩ := digit_char_facts n
        exact ⟨h1, h2, h3, h4, h5, h6, h7, h8, h9⟩
      · rw [dif_neg h]
        have hlt : n / 10 < n := by omega
        obtain ⟨hne, hall⟩ := ih (n / 10) hlt
        refine ⟨by simp [hne], ?_⟩
        intro c hc
        rw [List.mem_append] at hc
        rcases hc with hc | hc
        · exact hall c hc
        · rw [List.mem_singleton] at hc
          subst hc
          obtain ⟨h1, h2, h3, h4, h5, h6, h7, h8, h9⟩ :=
            digit_char_facts (n % 10)
          exact ⟨h1, h2, h3, h4, h5, h6, h7, h8, h9⟩

theorem find_named_tokens_all_clean (s : List Char) (prev : Bool)
    (h : ∀ c ∈ s, is_parameter_start c = false) :
    find_named_tokens prev s = [] := by
  have hc := find_named_tokens_clean s prev [] h
  rw [List.append_nil] at hc
  rw [hc]
  split <;> exact find_named_tokens_nil _

theorem find_positional_tokens_clean :
    ∀ (seg rest : List Char),
      (∀ c ∈ seg, c ≠ '?' ∧ (c = '$' || c = '@') = false) →
      find_positional_tokens (seg ++ rest) = find_positional_tokens rest := by
  intro seg
  induction seg with
  | nil =>
      intro rest _
      simp
  | cons c seg' ih =>
      intro rest hclean
      have hc := hclean c (by simp)
      rcases hsr : seg' ++ rest with _ | ⟨d, t⟩
      · have hseg' : seg' = [] := by
          rcases seg' with _ | _
          · rfl
          · simp at hsr
        have hrest : rest = [] := by
          subst hseg'
          simpa using hsr
        subst hseg'
        subst hrest
        show find_positional_tokens [c] = find_positional_tokens []
        simp only [find_positional_tokens]
        rw [if_neg hc.1]
      · show find_positional_tokens (c :: (seg' ++ rest)) = _
        rw [hsr, find_positional_tokens.eq_def]
        simp only [hc.1, hc.2, if_false, Bool.false_eq_true, ite_false]
        rw [← hsr]
        exact ih rest (fun c' h' => hclean c' (by simp [h']))

theorem find_positional_tokens_qmark (rest : List Char) :
    find_positional_tokens ('?' :: rest) =
      ['?'] :: find_positional_tokens rest := by
  rcases rest with _ | ⟨d, t⟩
  · simp [find_positional_tokens]
  · rw [find_positional_tokens, if_pos rfl]

theorem digit_is_word_char (c : Char) (h : c.isDigit = true) :
    is_word_char c = true := by
  simp [is_word_char, h]

theorem find_positional_tokens_dollar (ds rest : List Char)
    (hne : ds ≠ []) (hds : ∀ c ∈ ds, c.isDigit = true)
    (hrest : ∀ c ∈ rest.take 1, is_word_char c = false) :
    find_positional_tokens ('$' :: (ds ++ rest)) =
      ('$' :: ds) :: find_positional_tokens rest := by
  obtain ⟨d, ds', rfl⟩ : ∃ d ds', ds = d :: ds' := by
    rcases ds with _ | ⟨d, ds'⟩
    · exact absurd rfl hne
    · exact ⟨d, ds', rfl⟩
  have hd : d.isDigit = true := hds d (by simp)
  have hrest' : ∀ c ∈ rest.take 1, c.isDigit = false := by
    intro c hcr
    have hw := hrest c hcr
    by_contra hb
    rw [Bool.not_eq_false] at hb
    rw [digit_is_word_char c hb] at hw
    exact absurd hw (by simp)
  obtain ⟨ht, hdr⟩ := takeWhile_word_append Char.isDigit ds' rest
    (fun c h => hds c (by simp [h])) hrest'
  show find_positional_tokens ('$' :: d :: (ds' ++ rest)) = _
  rw [find_positional_tokens]
  rw [if_neg (by decide), if_pos (by decide), if_pos hd, ht, hdr]

theorem find_named_tokens_dollar (ds rest : List Char)
    (hne : ds ≠ [])
    (hds : ∀ c ∈ ds, is_parameter_start c = false ∧ is_word_start c = false) :
    find_named_tokens false ('$' :: (ds ++ rest)) =
      find_named_tokens false rest := by
  obtain ⟨d, ds', rfl⟩ : ∃ d ds', ds = d :: ds' := by
    rcases ds with _ | ⟨d, ds'⟩
    · exact absurd rfl hne
    · exact ⟨d, ds', rfl⟩
  have hd : is_word_start d = false := (hds d (by simp)).2
  show find_named_tokens false ('$' :: d :: (ds' ++ rest)) = _
  rw [find_named_tokens]
  rw [if_pos (by decide), if_neg (by simp [hd])]
  show find_named_tokens (decide ('$' = ':')) ((d :: ds') ++ rest) = _
  rw [show decide ('$' = ':') = false from by decide]
  rw [find_named_tokens_clean (d :: ds') false rest
    (fun c hc => (hds c hc).1)]
  rw [if_neg (List.cons_ne_nil d ds')]

theorem clean_char_ne_colon (c : Char) (h : is_parameter_start c = false) :
    c ≠ ':' := by
  simp only [is_parameter_start, Bool.or_eq_false_iff,
    decide_eq_false_iff_not] at h
  exact h.1.1

theorem clean_char_positional (c : Char) (h : is_parameter_start c = false)
    (hq : c ≠ '?') : c ≠ '?' ∧ (c = '$' || c = '@') = false := by
  refine ⟨hq, ?_⟩
  simp only [is_parameter_start, Bool.or_eq_false_iff,
    decide_eq_false_iff_not] at h
  simp [h.1.2, h.2]

theorem replacement_for_sqlite_named (k : Nat) (nm : List Char)
    (h : valid_name nm) :
    replacement_for ESQLDialect.SQLITE k (named_token nm) = named_token nm := by
  obtain ⟨d, w, rfl, hd, hw⟩ := h
  have hpos : is_positional_placeholder (':' :: d :: w) = false := by
    simp [is_positional_placeholder]
  have hnamed : is_named_parameter (':' :: d :: w) = true := by
    simp only [is_named_parameter, Bool.and_eq_true]
    refine ⟨⟨by decide, hd⟩, ?_⟩
    rw [List.all_eq_true]
    exact hw
  show replacement_for ESQLDialect.SQLITE k (':' :: d :: w) = ':' :: d :: w
  rw [replacement_for]
  rw [if_neg (by simp [hpos]), if_pos hnamed]
  have := lstrip_named_token (d :: w) ⟨d, w, rfl, hd, hw⟩
  rw [show named_token (d :: w) = ':' :: d :: w from rfl] at this
  rw [this]

theorem build_output_sqlite :
    ∀ (parts : List (List Char × List Char)) (k : Nat),
      (∀ p ∈ parts, valid_name p.1) →
      build_output ESQLDialect.SQLITE k parts =
        (parts.map fun p => named_token p.1 ++ p.2).flatten := by
  intro parts
  induction parts with
  | nil =>
      intro k _
      rw [build_output]
      simp
  | cons p parts' ih =>
      intro k hv
      rw [build_output, replacement_for_sqlite_named k p.1 (hv p (by simp))]
      rw [ih (k + 1) (fun q hq => hv q (by simp [hq]))]
      simp [List.append_assoc]

theorem build_output_qmark (dialect : ESQLDialect)
    (hq : ∀ (k : Nat) (tok : List Char),
      replacement_for dialect k tok = ['?']) :
    ∀ (parts : List (List Char × List Char)) (k : Nat),
      build_output dialect k parts =
        (parts.map fun p => '?' :: p.2).flatten := by
  intro parts
  induction parts with
  | nil =>
      intro k
      rw [build_output]
      simp
  | cons p parts' ih =>
      intro k
      rw [build_output, hq k, ih (k + 1)]
      simp

theorem replacement_head_cons (dialect : ESQLDialect) (k : Nat) (nm : List Char)
    (h : valid_name nm) :
    ∃ a r, replacement_for dialect k (named_token nm) = a :: r ∧
      is_word_char a = false := by
  cases dialect with
  | SQLITE =>
      rw [replacement_for_sqlite_named k nm h]
      obtain ⟨d, w, rfl, _, _⟩ := h
      exact ⟨':', d :: w, rfl, by decide⟩
  | POSTGRESQL => exact ⟨'$', nat_to_chars (k + 1), rfl, by decide⟩
  | MYSQL => exact ⟨'?', [], rfl, by decide⟩
  | SQLSERVER => exact ⟨'?', [], rfl, by decide⟩

theorem build_output_take_one (dialect : ESQLDialect)
    (parts : List (List Char × List Char)) (k : Nat)
    (hv : ∀ p ∈ parts, valid_name p.1) :
    ∀ c ∈ (build_output dialect k parts).take 1, is_word_char c = false := by
  rcases parts with _ | ⟨p, parts'⟩
  · rw [build_output]
    simp
  · obtain ⟨a, r, hrep, ha⟩ :=
      replacement_head_cons dialect k p.1 (hv p (by simp))
    rw [build_output, hrep]
    intro c hc
    simp only [List.cons_append, List.take_succ_cons, List.take_zero,
      List.mem_singleton] at hc
    subst hc
    exact ha

theorem count_template (first : List Char)
    (parts : List (List Char × List Char))
    (hfirst : clean_segment first)
    (hparts : ∀ p ∈ parts,
      valid_name p.1 ∧ clean_segment p.2 ∧ boundary_segment p.2) :
    count_placeholders (build_template first parts) = parts.length := by
  have hchars := build_template_chars first parts hfirst
    (fun p hp => ⟨(hparts p hp).1, (hparts p hp).2.1⟩)
  unfold count_placeholders find_named_parameters_and_positional_placeholders
    find_named_parameters find_positional_placeholders
  rw [remove_string_literals_id _ (fun c hc =>
    ⟨(hchars c hc).1, (hchars c hc).2.1⟩)]
  rw [find_named_tokens_build parts first
    (fun c hc => (hfirst c hc).1) hparts]
  rw [find_positional_tokens_none _ (fun c hc =>
    ⟨(hchars c hc).2.2.1, (hchars c hc).2.2.2⟩)]
  simp

theorem qmark_body_chars (parts : List (List Char × List Char))
    (hparts : ∀ p ∈ parts, clean_segment p.2) :
    ∀ c ∈ (parts.map fun p => '?' :: p.2).flatten,
      is_parameter_start c = false ∧ c ≠ '\'' ∧ c ≠ '"' := by
  intro c hc
  simp only [List.mem_flatten, List.mem_map] at hc
  obtain ⟨l, ⟨p, hp, rfl⟩, hcl⟩ := hc
  rcases List.mem_cons.mp hcl with rfl | hcl
  · exact ⟨by decide, by decide, by decide⟩
  · obtain ⟨h1, _, h3, h4⟩ := hparts p hp c hcl
    exact ⟨h1, h3, h4⟩

theorem find_positional_tokens_qmark_text :
    ∀ (parts : List (List Char × List Char)) (seg : List Char),
      (∀ c ∈ seg, c ≠ '?' ∧ (c = '$' || c = '@') = false) →
      (∀ p ∈ parts, clean_segment p.2) →
      find_positional_tokens
          (seg ++ (parts.map fun p => '?' :: p.2).flatten) =
        List.replicate parts.length ['?'] := by
  intro parts
  induction parts with
  | nil =>
      intro seg hseg _
      rw [List.map_nil, List.flatten_nil,
        find_positional_tokens_clean seg [] hseg, find_positional_tokens]
      simp
  | cons p parts' ih =>
      intro seg hseg hparts
      rw [List.map_cons, List.flatten_cons]
      rw [find_positional_tokens_clean seg _ hseg]
      rw [show ('?' :: p.2) ++ (parts'.map fun q => '?' :: q.2).flatten =
        '?' :: (p.2 ++ (parts'.map fun q => '?' :: q.2).flatten) from by simp]
      rw [find_positional_tokens_qmark]
      rw [ih p.2 (fun c hc =>
          clean_char_positional c (hparts p (by simp) c hc).1
            (hparts p (by simp) c hc).2.1)
        (fun q hq => hparts q (by simp [hq]))]
      simp [List.replicate]

theorem count_output_qmark (dialect : ESQLDialect)
    (hq : ∀ (k : Nat) (tok : List Char),
      replacement_for dialect k tok = ['?'])
    (first : List Char) (parts : List (List Char × List Char))
    (hfirst : clean_segment first)
    (hparts : ∀ p ∈ parts, clean_segment p.2) :
    count_placeholders (first ++ build_output dialect 0 parts) =
      parts.length := by
  rw [build_output_qmark dialect hq parts 0]
  have hchars : ∀ c ∈ first ++ (parts.map fun p => '?' :: p.2).flatten,
      is_parameter_start c = false ∧ c ≠ '\'' ∧ c ≠ '"' := by
    intro c hc
    rcases List.mem_append.mp hc with hc | hc
    · exact ⟨(hfirst c hc).1, (hfirst c hc).2.2.1, (hfirst c hc).2.2.2⟩
    · exact qmark_body_chars parts hparts c hc
  unfold count_placeholders find_named_parameters_and_positional_placeholders
    find_named_parameters find_positional_placeholders
  rw [remove_string_literals_id _ (fun c hc =>
    ⟨(hchars c hc).2.1, (hchars c hc).2.2⟩)]
  rw [find_named_tokens_all_clean _ false (fun c hc => (hchars c hc).1)]
  rw [find_positional_tokens_qmark_text parts first
    (fun c hc => clean_char_positional c (hfirst c hc).1 (hfirst c hc).2.1)
    hparts]
  simp

theorem find_named_tokens_output_postgres :
    ∀ (parts : List (List Char × List Char)) (k : Nat) (seg : List Char),
      (∀ c ∈ seg, is_parameter_start c = false) →
      (∀ p ∈ parts, clean_segment p.2) →
      find_named_tokens false
        (seg ++ build_output ESQLDialect.POSTGRESQL k parts) = [] := by
  intro parts
  induction parts with
  | nil =>
      intro k seg hseg _
      rw [build_output, find_named_tokens_clean seg false [] hseg, ite_self,
        find_named_tokens_nil]
  | cons p parts' ih =>
      intro k seg hseg hparts
      rw [build_output]
      rw [show replacement_for ESQLDialect.POSTGRESQL k (named_token p.1) =
        '$' :: nat_to_chars (k + 1) from rfl]
      rw [find_named_tokens_clean seg false _ hseg, ite_self]
      rw [show (('$' :: nat_to_chars (k + 1)) ++ p.2) ++
          build_output ESQLDialect.POSTGRESQL (k + 1) parts' =
        '$' :: (nat_to_chars (k + 1) ++
          (p.2 ++ build_output ESQLDialect.POSTGRESQL (k + 1) parts'))
        from by simp]
      rw [find_named_tokens_dollar _ _ (nat_to_chars_facts (k + 1)).1
        (fun c hc => ⟨((nat_to_chars_facts (k + 1)).2 c hc).2.2.2.1,
          ((nat_to_chars_facts (k + 1)).2 c hc).2.1⟩)]
      exact ih (k + 1) p.2 (fun c hc => (hparts p (by simp) c hc).1)
        (fun q hq => hparts q (by simp [hq]))

theorem find_positional_tokens_output_postgres :
    ∀ (parts : List (List Char × List Char)) (k : Nat) (seg : List Char),
      (∀ c ∈ seg, c ≠ '?' ∧ (c = '$' || c = '@') = false) →
      (∀ p ∈ parts,
        valid_name p.1 ∧ clean_segment p.2 ∧ boundary_segment p.2) →
      (find_positional_tokens
        (seg ++ build_output ESQLDialect.POSTGRESQL k parts)).length =
        parts.length := by
  intro parts
  induction parts with
  | nil =>
      intro k seg hseg _
      rw [build_output, find_positional_tokens_clean seg [] hseg,
        find_positional_tokens]
      simp
  | cons p parts' ih =>
      intro k seg hseg hparts
      rw [build_output]
      rw [show replacement_for ESQLDialect.POSTGRESQL k (named_token p.1) =
        '$' :: nat_to_chars (k + 1) from rfl]
      rw [find_positional_tokens_clean seg _ hseg]
      rw [show (('$' :: nat_to_chars (k + 1)) ++ p.2) ++
          build_output ESQLDialect.POSTGRESQL (k + 1) parts' =
        '$' :: (nat_to_chars (k + 1) ++
          (p.2 ++ build_output ESQLDialect.POSTGRESQL (k + 1) parts'))
        from by simp]
      rw [find_positional_tokens_dollar (nat_to_chars (k + 1)) _
        (nat_to_chars_facts (k + 1)).1
        (fun c hc => ((nat_to_chars_facts (k + 1)).2 c hc).1)
        (boundary_append p.2 _ (hparts p (by simp)).2.2
          (build_output_take_one ESQLDialect.POSTGRESQL parts' (k + 1)
            (fun q hq => (hparts q (by simp [hq])).1)))]
      rw [List.length_cons]
      rw [ih (k + 1) p.2 (fun c hc =>
        clean_char_positional c ((hparts p (by simp)).2.1 c hc).1
          ((hparts p (by simp)).2.1 c hc).2.1)
        (fun q hq => hparts q (by simp [hq]))]
      simp

theorem build_output_postgres_chars :
    ∀ (parts : List (List Char × List Char)) (k : Nat),
      (∀ p ∈ parts, clean_segment p.2) →
      ∀ c ∈ build_output ESQLDialect.POSTGRESQL k parts,
        c ≠ '\'' ∧ c ≠ '"' := by
  intro parts
  induction parts with
  | nil =>
      intro k _ c hc
      rw [build_output] at hc
      simp at hc
  | cons p parts' ih =>
      intro k hp c hc
      rw [build_output,
        show replacement_for ESQLDialect.POSTGRESQL k (named_token p.1) =
          '$' :: nat_to_chars (k + 1) from rfl] at hc
      simp only [List.cons_append, List.append_assoc, List.mem_cons,
        List.mem_append] at hc
      rcases hc with rfl | hc
      · exact ⟨by decide, by decide⟩
      rcases hc with hc | hc | hc
      · exact ⟨((nat_to_chars_facts (k + 1)).2 c hc).2.2.2.2.2.2.2.1,
          ((nat_to_chars_facts (k + 1)).2 c hc).2.2.2.2.2.2.2.2⟩
      · exact ⟨(hp p (by simp) c hc).2.2.1, (hp p (by simp) c hc).2.2.2⟩
      · exact ih (k + 1) (fun q hq => hp q (by simp [hq])) c hc

theorem count_output_postgres (first : List Char)
    (parts : List (List Char × List Char))
    (hfirst : clean_segment first)
    (hparts : ∀ p ∈ parts,
      valid_name p.1 ∧ clean_segment p.2 ∧ boundary_segment p.2) :
    count_placeholders
        (first ++ build_output ESQLDialect.POSTGRESQL 0 parts) =
      parts.length := by
  have hquotes : ∀ c ∈ first ++ build_output ESQLDialect.POSTGRESQL 0 parts,
      c ≠ '\'' ∧ c ≠ '"' := by
    intro c hc
    rcases List.mem_append.mp hc with hc | hc
    · exact ⟨(hfirst c hc).2.2.1, (hfirst c hc).2.2.2⟩
    · exact build_output_postgres_chars parts 0
        (fun p hp => (hparts p hp).2.1) c hc
  unfold count_placeholders find_named_parameters_and_positional_placeholders
    find_named_parameters find_positional_placeholders
  rw [remove_string_literals_id _ hquotes]
  rw [find_named_tokens_output_postgres parts 0 first
    (fun c hc => (hfirst c hc).1) (fun p hp => (hparts p hp).2.1)]
  rw [List.nil_append]
  exact find_positional_tokens_output_postgres parts 0 first
    (fun c hc => clean_char_positional c (hfirst c hc).1 (hfirst c hc).2.1)
    hparts

theorem sort_fold_parts {V : Type} (d : PyDict (List Char) V)
    (lookup : List Char → V) :
    ∀ (parts : List (List Char × List Char)) (acc : PyDict (List Char) V),
      (parts.map Prod.fst).Nodup →
      (∀ p ∈ parts, valid_name p.1) →
      (∀ p ∈ parts, pyGet? d p.1 = some (lookup p.1)) →
      (∀ p ∈ parts, p.1 ∉ pyKeys acc) →
      List.foldlM
        (fun acc tok =>
          match pyGet? d (lstrip_parameter_start tok) with
          | some v => some (pySet acc (lstrip_parameter_start tok) v)
          | none => none)
        acc (parts.map fun p => named_token p.1) =
        some (acc ++ parts.map fun p => (p.1, lookup p.1)) := by
  intro parts
  induction parts with
  | nil =>
      intro acc _ _ _ _
      simp
  | cons p parts' ih =>
      intro acc hnodup hv hl hk
      rw [List.map_cons, List.foldlM_cons]
      rw [lstrip_named_token p.1 (hv p (by simp))]
      rw [hl p (by simp)]
      show (some (pySet acc p.1 (lookup p.1)) >>= fun acc' =>
        List.foldlM _ acc' (parts'.map fun q => named_token q.1)) = _
      rw [Option.bind_eq_bind, Option.some_bind]
      rw [pySet_fresh acc p.1 (lookup p.1) (hk p (by simp))]
      simp only [List.map_cons, List.nodup_cons] at hnodup
      rw [ih (acc ++ [(p.1, lookup p.1)]) hnodup.2
        (fun q hq => hv q (by simp [hq]))
        (fun q hq => hl q (by simp [hq]))
        ?fresh]
      case fresh =>
        intro q hq
        simp only [pyKeys, List.map_append, List.mem_append, List.map_cons,
          List.map_nil, List.mem_singleton]
        rintro (hin | heq)
        · exact hk q (by simp [hq]) hin
        · exact hnodup.1 (heq ▸ List.mem_map.mpr ⟨q, hq, rfl⟩)
      simp

/-- C1 (amended): for a template interleaving quote-free plain text with
syntactically valid, pairwise distinct named-parameter tokens — the shape the
statement templates of this system produce — and a parameter dict binding
exactly those names, `SQLTranspiler.transpile` rewrites the text for the
target dialect and reconciles the parameter collection so that the number of
placeholder tokens in the rewritten text equals the number of parameters in
the reconciled collection, with the parameters arranged in the placeholders'
order of appearance (a name-keyed dict for SQLite, a value tuple in template
order for the positional dialects). -/
theorem C1_amended_conservation {V : Type} (dialect : ESQLDialect)
    (first : List Char) (parts : List (List Char × List Char))
    (params : PyDict (List Char) V) (lookup : List Char → V)
    (hfirst : clean_segment first)
    (hparts : ∀ p ∈ parts,
      valid_name p.1 ∧ clean_segment p.2 ∧ boundary_segment p.2)
    (hnodup : (parts.map Prod.fst).Nodup)
    (hlookup : ∀ p ∈ parts, pyGet? params p.1 = some (lookup p.1)) :
    SQLTranspiler.transpile dialect (build_template first parts)
        (some (.dict params)) =
      (first ++ build_output dialect 0 parts,
        some (reconciled_parameters dialect parts lookup)) ∧
    count_placeholders (first ++ build_output dialect 0 parts) =
      parts.length := by
  have hchars := build_template_chars first parts hfirst
    (fun p hp => ⟨(hparts p hp).1, (hparts p hp).2.1⟩)
  have hfind : find_named_parameters (build_template first parts) =
      parts.map fun p => named_token p.1 := by
    unfold find_named_parameters
    rw [remove_string_literals_id _ (fun c hc =>
      ⟨(hchars c hc).1, (hchars c hc).2.1⟩)]
    exact find_named_tokens_build parts first
      (fun c hc => (hfirst c hc).1) hparts
  have hfindpos : find_positional_placeholders (build_template first parts) =
      [] := by
    unfold find_positional_placeholders
    rw [remove_string_literals_id _ (fun c hc =>
      ⟨(hchars c hc).1, (hchars c hc).2.1⟩)]
    exact find_positional_tokens_none _ (fun c hc =>
      ⟨(hchars c hc).2.2.1, (hchars c hc).2.2.2⟩)
  have hsql : transpile_sql dialect (build_template first parts) =
      first ++ build_output dialect 0 parts := by
    unfold transpile_sql update_named_parameters_and_positional_placeholders
      find_named_parameters_and_positional_placeholders
    rw [hfind, hfindpos, List.append_nil]
    have hloop := update_tokens_loop_build dialect parts 0 [] first
      (fun c hc => clean_char_ne_colon c (hfirst c hc).1)
      (fun p hp c hc => clean_char_ne_colon c ((hparts p hp).2.1 c hc).1)
    simp only [List.nil_append, List.length_nil, Nat.cast_zero] at hloop
    rw [build_template]
    exact hloop
  have hsort : sort_parameters (build_template first parts)
      (.dict params : PyParams V) =
      some (.dict (parts.map fun p => (p.1, lookup p.1))) := by
    rw [sort_parameters, hfind]
    rw [sort_fold_parts params lookup parts [] hnodup
      (fun p hp => (hparts p hp).1) hlookup (by simp [pyKeys])]
    simp
  have hparams : transpile_parameters dialect (build_template first parts)
      (some (.dict params : PyParams V)) =
      some (reconciled_parameters dialect parts lookup) := by
    simp only [transpile_parameters]
    rw [hsort]
    cases dialect <;>
      simp [reconciled_parameters, pyValues, List.map_map, Function.comp]
  have hcount : count_placeholders (first ++ build_output dialect 0 parts) =
      parts.length := by
    cases dialect with
    | SQLITE =>
        rw [build_output_sqlite parts 0 (fun p hp => (hparts p hp).1)]
        exact count_template first parts hfirst hparts
    | POSTGRESQL => exact count_output_postgres first parts hfirst hparts
    | MYSQL =>
        exact count_output_qmark ESQLDialect.MYSQL (fun _ _ => rfl) first
          parts hfirst (fun p hp => (hparts p hp).2.1)
    | SQLSERVER =>
        exact count_output_qmark ESQLDialect.SQLSERVER (fun _ _ => rfl) first
          parts hfirst (fun p hp => (hparts p hp).2.1)
  refine ⟨?_, hcount⟩
  rw [SQLTranspiler.transpile, hsql, hparams]

theorem C1_amended_conservation_witness :
    SQLTranspiler.transpile ESQLDialect.POSTGRESQL
        (build_template "SELECT ".toList [(['a'], ", ".toList), (['b'], [])])
        (some (.dict [(['a'], (1 : Int)), (['b'], 2)])) =
      ("SELECT ".toList ++ build_output ESQLDialect.POSTGRESQL 0
          [(['a'], ", ".toList), (['b'], [])],
        some (reconciled_parameters ESQLDialect.POSTGRESQL
          [(['a'], ", ".toList), (['b'], [])]
          (fun nm => if nm = ['a'] then (1 : Int) else 2))) ∧
    count_placeholders ("SELECT ".toList ++
        build_output ESQLDialect.POSTGRESQL 0
          [(['a'], ", ".toList), (['b'], [])]) = 2 := by
  exact C1_amended_conservation ESQLDialect.POSTGRESQL "SELECT ".toList
    [(['a'], ", ".toList), (['b'], [])]
    [(['a'], (1 : Int)), (['b'], 2)]
    (fun nm => if nm = ['a'] then 1 else 2)
    (by unfold clean_segment; decide)
    (by
      intro p hp
      rcases List.mem_cons.mp hp with rfl | hp
      · exact ⟨⟨'a', [], rfl, by decide, by decide⟩,
          by unfold clean_segment; decide, by unfold boundary_segment; decide⟩
      rcases List.mem_cons.mp hp with rfl | hp
      · exact ⟨⟨'b', [], rfl, by decide, by decide⟩,
          by unfold clean_segment; decide, by unfold boundary_segment; decide⟩
      cases hp)
    (by decide) (by decide)
